import Mathlib

/-!
Verification of the verse-segmentation core of the nineteenapp repository.

The embedding models the two `parseVersesFromContent` routines (the
mid-stream variant from the API route and the end-of-unit variant from the
scraping script), the `arabicIndicToNumber` numeral decoder, and the
`numberToArabicIndic` display converter.  Strings are modelled as `List Char`,
JavaScript numbers as `Int`/`Nat` (with `Option Int` for `NaN`).
-/

/-- The JavaScript `\s` character class (`WhiteSpace` ∪ `LineTerminator`),
which is also the set trimmed by `String.prototype.trim` and by `parseInt`. -/
def jsIsSpace (c : Char) : Bool :=
  c.toNat = 32 || c.toNat = 9 || c.toNat = 10 || c.toNat = 11 || c.toNat = 12 ||
  c.toNat = 13 || c.toNat = 0xA0 || c.toNat = 0x1680 ||
  (0x2000 ≤ c.toNat && c.toNat ≤ 0x200A) ||
  c.toNat = 0x2028 || c.toNat = 0x2029 || c.toNat = 0x202F || c.toNat = 0x205F ||
  c.toNat = 0x3000 || c.toNat = 0xFEFF

/-- Membership in the character class `[٠-٩۰-۹]` used by both routines:
Arabic-Indic digits U+0660–U+0669 and Extended Arabic-Indic digits
U+06F0–U+06F9. -/
def isArabicIndicDigit (c : Char) : Bool :=
  (0x660 ≤ c.toNat && c.toNat ≤ 0x669) || (0x6F0 ≤ c.toNat && c.toNat ≤ 0x6F9)

/-- The `arabicIndicDigits` lookup table of `arabicIndicToNumber`: maps each
of the twenty numeral characters to the corresponding ASCII digit character,
and is undefined (`none`) elsewhere.  The source lists the twenty entries
literally; the two contiguous code-point ranges encode exactly that table
(checked entry by entry in `arabicIndicDigits_table`). -/
def arabicIndicDigits (c : Char) : Option Char :=
  if 0x660 ≤ c.toNat && c.toNat ≤ 0x669 then some (Char.ofNat (48 + (c.toNat - 0x660)))
  else if 0x6F0 ≤ c.toNat && c.toNat ≤ 0x6F9 then some (Char.ofNat (48 + (c.toNat - 0x6F0)))
  else none

/-- ASCII decimal digit. -/
def isAsciiDigit (c : Char) : Bool := 48 ≤ c.toNat && c.toNat ≤ 57

/-- ASCII hexadecimal digit. -/
def isHexDigitChar (c : Char) : Bool :=
  isAsciiDigit c || (65 ≤ c.toNat && c.toNat ≤ 70) || (97 ≤ c.toNat && c.toNat ≤ 102)

/-- Numeric value of an ASCII decimal digit. -/
def decDigitVal (c : Char) : Nat := c.toNat - 48

/-- Numeric value of an ASCII hexadecimal digit. -/
def hexDigitVal (c : Char) : Nat :=
  if isAsciiDigit c then c.toNat - 48
  else if 65 ≤ c.toNat && c.toNat ≤ 70 then c.toNat - 55
  else c.toNat - 87

/-- Left-to-right base-`b` composition of a digit list under a digit-value
assignment. -/
def digitsBase (b : Nat) (val : Char → Nat) (ds : List Char) : Nat :=
  ds.foldl (fun a c => b * a + val c) 0

/-- The exact integer stage of JavaScript `parseInt(str)` with the radix
argument omitted: skip leading whitespace, read an optional sign, detect a
`0x`/`0X` prefix (hexadecimal) and otherwise read the longest leading run of
decimal digits; `none` models `NaN`.  This is the `mathInt` value of the
ECMAScript `parseInt` algorithm; the algorithm's final step, converting
`mathInt` to a double-precision Number, is modelled by `parseIntDouble`
below. -/
def parseIntJS (s : List Char) : Option Int :=
  let s1 := s.dropWhile jsIsSpace
  let sign : Int := if s1.head? = some '-' then -1 else 1
  let s2 := if s1.head? = some '-' || s1.head? = some '+' then s1.tail else s1
  if s2.head? = some '0' && (s2.tail.head? = some 'x' || s2.tail.head? = some 'X') then
    let ds := (s2.tail.tail).takeWhile isHexDigitChar
    if ds.isEmpty then none else some (sign * (digitsBase 16 hexDigitVal ds : Nat))
  else
    let ds := s2.takeWhile isAsciiDigit
    if ds.isEmpty then none else some (sign * (digitsBase 10 decDigitVal ds : Nat))

/-- `arabicIndicToNumber` at the exact `mathInt` level: map every character
through the `arabicIndicDigits` table (characters outside the table pass
through unchanged, the `?? c` fallback) and read the resulting digit string.
`arabicIndicToNumberDouble` below adds the double-precision rounding of the
real `parseInt`; the two agree on every equality test against a value below
2^53 (`decode_agree_below`), which covers every comparison the segmentation
loop performs, since its expected number never exceeds the chunk count of
the input. -/
def arabicIndicToNumber (s : List Char) : Option Int :=
  parseIntJS (s.map (fun c => (arabicIndicDigits c).getD c))

/-- A verse as produced by the segmenter: `{ number, text }`. -/
structure Verse where
  number : Nat
  text : List Char
deriving DecidableEq

/-- JavaScript `String.prototype.trim()`: remove leading and trailing
whitespace. -/
def jsTrim (s : List Char) : List Char :=
  ((s.dropWhile jsIsSpace).reverse.dropWhile jsIsSpace).reverse

/-- The test `/^[٠-٩۰-۹]+$/.test(part)` of the segmentation loop: a
non-empty string consisting solely of numeral-alphabet digits. -/
def isVerseNumStr (s : List Char) : Bool :=
  !s.isEmpty && s.all isArabicIndicDigit

/-- State of the accumulation loop of `parseVersesFromContent`. -/
structure ScanState where
  verses : List Verse
  currentText : List Char
  expectedVerseNum : Nat
deriving DecidableEq

/-- The accepted-marker branch shared by both conventions: trim the
accumulated text, emit it as a verse unless empty, reset the buffer and
increment the expected number. -/
def flushVerse (st : ScanState) : ScanState :=
  let verseText := jsTrim st.currentText
  { verses := if verseText.isEmpty then st.verses
              else st.verses ++ [⟨st.expectedVerseNum, verseText⟩],
    currentText := [],
    expectedVerseNum := st.expectedVerseNum + 1 }

/-- One iteration of the loop of the mid-stream `parseVersesFromContent`
(API route): a rejected marker is appended as `" " + part`, a text part as
`(currentText ? " " : "") + part`. -/
def stepMid (st : ScanState) (part : List Char) : ScanState :=
  if isVerseNumStr part then
    if arabicIndicToNumber part = some (st.expectedVerseNum : Int) then
      flushVerse st
    else
      { st with currentText := st.currentText ++ ' ' :: part }
  else
    { st with currentText :=
        st.currentText ++ (if st.currentText.isEmpty then [] else [' ']) ++ part }

/-- One iteration of the loop of the end-of-unit `parseVersesFromContent`
(scraping script): both rejected markers and text parts are appended
verbatim (`currentText += part`). -/
def stepEnd (st : ScanState) (part : List Char) : ScanState :=
  if isVerseNumStr part then
    if arabicIndicToNumber part = some (st.expectedVerseNum : Int) then
      flushVerse st
    else
      { st with currentText := st.currentText ++ part }
  else
    { st with currentText := st.currentText ++ part }

/-- The epilogue of both routines: emit the remaining trimmed text, if any,
as one final verse numbered with the current expected number. -/
def finalizeScan (st : ScanState) : List Verse :=
  let remainingText := jsTrim st.currentText
  if remainingText.isEmpty then st.verses
  else st.verses ++ [⟨st.expectedVerseNum, remainingText⟩]

/-- Leftmost-match search for the mid-stream separator regex
`\s([٠-٩۰-۹]+)(?:\s|$)`, expressed as a character scan.  The state is the
pending whitespace character (the `\s` that may open a match) and the digit
run collected so far (in reverse).  On success it returns the text before
the match, the captured digit run, and the text after the match. -/
def scanMid : Option Char → List Char → List Char →
    Option (List Char × List Char × List Char)
  | some _, r :: rs, [] => some ([], (r :: rs).reverse, [])
  | _, _, [] => none
  | none, _, c :: rest =>
    if jsIsSpace c then scanMid (some c) [] rest
    else (scanMid none [] rest).map (fun x => (c :: x.1, x.2.1, x.2.2))
  | some s, run, c :: rest =>
    if isArabicIndicDigit c then scanMid (some s) (c :: run) rest
    else if run.isEmpty then
      if jsIsSpace c then (scanMid (some c) [] rest).map (fun x => (s :: x.1, x.2.1, x.2.2))
      else (scanMid none [] rest).map (fun x => (s :: c :: x.1, x.2.1, x.2.2))
    else
      if jsIsSpace c then some ([], run.reverse, rest)
      else (scanMid none [] rest).map
        (fun x => ((s :: run.reverse) ++ c :: x.1, x.2.1, x.2.2))

/-- Leftmost match of the mid-stream separator regex in a string. -/
def findMidMatch (s : List Char) : Option (List Char × List Char × List Char) :=
  scanMid none [] s

/-- Leftmost-match search for the end-of-unit separator regex
`([٠-٩۰-۹]+)(?:\s|$)`: like `scanMid` but a digit run needs no preceding
whitespace. -/
def scanEnd : List Char → List Char → Option (List Char × List Char × List Char)
  | r :: rs, [] => some ([], (r :: rs).reverse, [])
  | [], [] => none
  | run, c :: rest =>
    if isArabicIndicDigit c then scanEnd (c :: run) rest
    else if run.isEmpty then
      (scanEnd [] rest).map (fun x => (c :: x.1, x.2.1, x.2.2))
    else
      if jsIsSpace c then some ([], run.reverse, rest)
      else (scanEnd [] rest).map
        (fun x => (run.reverse ++ c :: x.1, x.2.1, x.2.2))

/-- Leftmost match of the end-of-unit separator regex in a string. -/
def findEndMatch (s : List Char) : Option (List Char × List Char × List Char) :=
  scanEnd [] s

/-- JavaScript `String.prototype.split` with a regex containing one capture
group: cut the string at every leftmost match, keeping the captured group
between the chunks.  Every match of either separator regex consumes at least
one character, so fuel `s.length + 1` always suffices (`splitLoop_fuel_eq`
below makes this precise). -/
def splitLoop (find : List Char → Option (List Char × List Char × List Char)) :
    Nat → List Char → List (List Char)
  | 0, s => [s]
  | fuel + 1, s =>
    match find s with
    | none => [s]
    | some (pre, cap, post) => pre :: cap :: splitLoop find fuel post

/-- `content.split(/\s([٠-٩۰-۹]+)(?:\s|$)/)`. -/
def jsSplitMid (s : List Char) : List (List Char) :=
  splitLoop findMidMatch (s.length + 1) s

/-- `content.split(/([٠-٩۰-۹]+)(?:\s|$)/)`. -/
def jsSplitEnd (s : List Char) : List (List Char) :=
  splitLoop findEndMatch (s.length + 1) s

/-- The initial loop state: no verses, empty buffer, expecting verse 1. -/
def initState : ScanState := ⟨[], [], 1⟩

namespace Mid

/-- `parseVersesFromContent` of the API route (mid-stream convention):
split on whitespace-bounded numeral runs, then run the sequential
acceptance loop and the epilogue. -/
def parseVersesFromContent (content : List Char) : List Verse :=
  finalizeScan ((jsSplitMid content).foldl stepMid initState)

end Mid

namespace EndUnit

/-- `parseVersesFromContent` of the scraping script (end-of-unit
convention): split on numeral runs followed by whitespace or end of string,
then run the sequential acceptance loop and the epilogue. -/
def parseVersesFromContent (content : List Char) : List Verse :=
  finalizeScan ((jsSplitEnd content).foldl stepEnd initState)

end EndUnit

/-- `numberToArabicIndic`'s digit array lookup: ASCII digit position `d`
holds the Arabic-Indic digit U+0660 + `d`. -/
def arabicIndicOfAsciiDigit (c : Char) : Char :=
  Char.ofNat (0x660 + (c.toNat - 48))

/-- Decimal digit string of a natural number (the digits of JavaScript
`String(num)` for integral non-negative `num` below 10^21, where `String`
renders plain decimal), driven by a fuel argument to keep the recursion
structural.  `jsStringOfNat` below extends this to the exponential notation
`String` uses from 10^21 on. -/
def decReprAux : Nat → Nat → List Char
  | 0, _ => []
  | fuel + 1, n =>
    if n < 10 then [Char.ofNat (48 + n)]
    else decReprAux fuel (n / 10) ++ [Char.ofNat (48 + n % 10)]

/-- Decimal representation of a natural number, most significant digit
first. -/
def decRepr (n : Nat) : List Char := decReprAux (n + 1) n

/-- `numberToArabicIndic` (UI components) on the plain-decimal range: render
the decimal digits of `num` in the Arabic-Indic alphabet U+0660–U+0669.
Faithful to the source for every `num` below 10^21, where `String(num)` is
the plain decimal digit string; verse numbers, bounded by the chunk count of
their collection, always lie in that range.  `numberToArabicIndicFull`
below is the full model including the exponential-notation behaviour of
`String` from 10^21 on. -/
def numberToArabicIndic (n : Nat) : List Char :=
  (decRepr n).map arabicIndicOfAsciiDigit

/-- Fuel-driven floor of the base-2 logarithm. -/
def log2Fuel : Nat → Nat → Nat
  | 0, _ => 0
  | fuel + 1, n => if n < 2 then 0 else log2Fuel fuel (n / 2) + 1

/-- Floor of the base-2 logarithm (with `natLog2 0 = 0`). -/
def natLog2 (n : Nat) : Nat := log2Fuel n n

/-- The value of the IEEE-754 binary64 double nearest to the non-negative
integer `v`, rounding half to even: integers below 2^53 are exact; above,
`v` is rounded to 53 significant bits.  The exponent is unbounded here;
overflow to Infinity is detected by the caller against 2^1024. -/
def jsRoundToDouble (v : Nat) : Nat :=
  if v < 2 ^ 53 then v
  else
    let e := natLog2 v - 52
    let q := v / 2 ^ e
    let r := v % 2 ^ e
    let q2 := if 2 ^ e < 2 * r ∨ (2 * r = 2 ^ e ∧ q % 2 = 1) then q + 1 else q
    q2 * 2 ^ e

/-- A JavaScript number as observed from a `parseInt` call: `NaN`, an
infinity, or a finite (here always integral) value. -/
inductive JsNum
  | nan
  | infinity
  | finite (v : Int)
deriving DecidableEq

/-- The full model of JavaScript `parseInt(str)`: the exact `mathInt` stage
(`parseIntJS`) followed by the ECMAScript conversion of `mathInt` to a
Number — the nearest double, or Infinity when that rounding reaches
2^1024. -/
def parseIntDouble (s : List Char) : JsNum :=
  match parseIntJS s with
  | none => .nan
  | some v =>
    let m := jsRoundToDouble v.natAbs
    if 2 ^ 1024 ≤ m then .infinity
    else .finite (if v < 0 then -(m : Int) else (m : Int))

/-- `arabicIndicToNumber` with the double-precision semantics of the real
`parseInt`: the faithful model of the source decoder for claims about the
decoded value itself. -/
def arabicIndicToNumberDouble (s : List Char) : JsNum :=
  parseIntDouble (s.map (fun c => (arabicIndicDigits c).getD c))

/-- Exponential-notation rendering of JavaScript `String(num)` for integers
of at least 10^21: significand digits (trailing zeros stripped, a `.` after
the first digit when more than one remains) followed by `e+` and the
exponent.  The significand here carries the exact decimal digits of `n`,
which matches `String` whenever those digits are the shortest decimal
representation of the double — in particular at every power of ten, the
only region where this model is exercised. -/
def expRepr (n : Nat) : List Char :=
  let ds := decRepr n
  let sig := (ds.reverse.dropWhile (fun c => c = '0')).reverse
  let ex := decRepr (ds.length - 1)
  match sig with
  | [] => []
  | [d] => d :: 'e' :: '+' :: ex
  | d :: dtail => d :: '.' :: dtail ++ 'e' :: '+' :: ex

/-- JavaScript `String(num)` for integral non-negative `num`: plain decimal
digits below 10^21, exponential notation from 10^21 on. -/
def jsStringOfNat (n : Nat) : List Char :=
  if n < 10 ^ 21 then decRepr n else expRepr n

/-- The full model of `numberToArabicIndic`: render `String(num)`, then map
each character `d` through `digits[parseInt(d)]` — an Arabic-Indic digit for
the ten ASCII digits, and `undefined` (dropped by the `join`) for every
other character such as `e`, `+` or `.`. -/
def numberToArabicIndicFull (n : Nat) : List Char :=
  (jsStringOfNat n).filterMap
    (fun c => if isAsciiDigit c then some (arabicIndicOfAsciiDigit c) else none)

/-! ### Spec-side statement of the decoder's contract -/

/-- Digit value (0–9) of a numeral-alphabet character, following the spec's
digit tables: U+0660+d and U+06F0+d both stand for the digit d. -/
def arabicDigitVal (c : Char) : Nat :=
  if 0x660 ≤ c.toNat && c.toNat ≤ 0x669 then c.toNat - 0x660 else c.toNat - 0x6F0

/-- Modelled from the spec's wording for the decoder contract: the integer
obtained by mapping each character to its 0–9 digit value and composing
left-to-right as a base-10 number. -/
def specDigitsValue (s : List Char) : Nat :=
  s.foldl (fun a c => 10 * a + arabicDigitVal c) 0

/-! ### Character-level helper lemmas -/

theorem char_eq_of_toNat_eq {a b : Char} (h : a.toNat = b.toNat) : a = b := by
  rw [← Char.ofNat_toNat a, ← Char.ofNat_toNat b, h]

theorem toNat_charOfNat {n : Nat} (h : n < 55296) : (Char.ofNat n).toNat = n := by
  unfold Char.ofNat
  split
  · rfl
  · rename_i hv
    exact absurd (Or.inl h) hv

/-- The twenty entries of the source's `arabicIndicDigits` lookup table,
checked literally against the range-encoded definition. -/
theorem arabicIndicDigits_table :
    arabicIndicDigits '٠' = some '0' ∧ arabicIndicDigits '١' = some '1' ∧
    arabicIndicDigits '٢' = some '2' ∧ arabicIndicDigits '٣' = some '3' ∧
    arabicIndicDigits '٤' = some '4' ∧ arabicIndicDigits '٥' = some '5' ∧
    arabicIndicDigits '٦' = some '6' ∧ arabicIndicDigits '٧' = some '7' ∧
    arabicIndicDigits '٨' = some '8' ∧ arabicIndicDigits '٩' = some '9' ∧
    arabicIndicDigits '۰' = some '0' ∧ arabicIndicDigits '۱' = some '1' ∧
    arabicIndicDigits '۲' = some '2' ∧ arabicIndicDigits '۳' = some '3' ∧
    arabicIndicDigits '۴' = some '4' ∧ arabicIndicDigits '۵' = some '5' ∧
    arabicIndicDigits '۶' = some '6' ∧ arabicIndicDigits '۷' = some '7' ∧
    arabicIndicDigits '۸' = some '8' ∧ arabicIndicDigits '۹' = some '9' := by
  decide

theorem arabicDigitVal_lt_ten {c : Char} (h : isArabicIndicDigit c = true) :
    arabicDigitVal c < 10 := by
  simp only [isArabicIndicDigit, Bool.or_eq_true, Bool.and_eq_true,
    decide_eq_true_eq] at h
  simp only [arabicDigitVal]
  split <;> rename_i h' <;>
    simp only [Bool.and_eq_true, decide_eq_true_eq] at * <;> omega

theorem arabicIndicDigits_of_digit {c : Char} (h : isArabicIndicDigit c = true) :
    arabicIndicDigits c = some (Char.ofNat (48 + arabicDigitVal c)) := by
  simp only [isArabicIndicDigit, Bool.or_eq_true, Bool.and_eq_true,
    decide_eq_true_eq] at h
  simp only [arabicIndicDigits, arabicDigitVal]
  rcases h with h | h
  · rw [if_pos, if_pos] <;> simp only [Bool.and_eq_true, decide_eq_true_eq] <;> omega
  · by_cases h6 : 1632 ≤ c.toNat ∧ c.toNat ≤ 1641
    · omega
    · rw [if_neg, if_pos, if_neg] <;>
        simp only [Bool.and_eq_true, decide_eq_true_eq, not_and, not_le] <;> omega

/-- The ASCII digit character produced by the lookup table. -/
theorem toNat_mapped_digit {c : Char} (h : isArabicIndicDigit c = true) :
    (Char.ofNat (48 + arabicDigitVal c)).toNat = 48 + arabicDigitVal c := by
  have := arabicDigitVal_lt_ten h
  exact toNat_charOfNat (by omega)

theorem isAsciiDigit_iff {c : Char} :
    isAsciiDigit c = true ↔ 48 ≤ c.toNat ∧ c.toNat ≤ 57 := by
  simp [isAsciiDigit]

theorem jsIsSpace_false_of_digit {c : Char} (h : isAsciiDigit c = true) :
    jsIsSpace c = false := by
  rw [isAsciiDigit_iff] at h
  simp only [jsIsSpace]
  simp only [Bool.or_eq_false_iff, Bool.and_eq_false_iff,
    decide_eq_false_iff_not]
  omega

/-! ### `parseIntJS` on a plain decimal digit string -/

theorem takeWhile_eq_self_of_all {p : Char → Bool} :
    ∀ {l : List Char}, (∀ c ∈ l, p c = true) → l.takeWhile p = l
  | [], _ => rfl
  | c :: t, h => by
    rw [List.takeWhile_cons, if_pos (h c (List.mem_cons_self c t))]
    rw [takeWhile_eq_self_of_all (fun x hx => h x (List.mem_cons_of_mem c hx))]


theorem parseIntJS_all_digits {ds : List Char} (hne : ds ≠ [])
    (hall : ∀ c ∈ ds, isAsciiDigit c = true) :
    parseIntJS ds = some ((digitsBase 10 decDigitVal ds : Nat) : Int) := by
  obtain ⟨d, t, rfl⟩ := List.exists_cons_of_ne_nil hne
  have hd : isAsciiDigit d = true := hall d (List.mem_cons_self d t)
  have hdn : 48 ≤ d.toNat ∧ d.toNat ≤ 57 := isAsciiDigit_iff.mp hd
  have hs : jsIsSpace d = false := jsIsSpace_false_of_digit hd
  have hdrop : (d :: t).dropWhile jsIsSpace = d :: t :=
    List.dropWhile_cons_of_neg (by simp [hs])
  have c1 : (d = '-') = False := by
    simp only [eq_iff_iff, iff_false]
    intro h; subst h; revert hdn; decide
  have c2 : (d = '+') = False := by
    simp only [eq_iff_iff, iff_false]
    intro h; subst h; revert hdn; decide
  have c3 : (t.head? = some 'x') = False := by
    simp only [eq_iff_iff, iff_false]
    cases t with
    | nil => simp
    | cons e t' =>
      have hen := isAsciiDigit_iff.mp (hall e (by simp))
      simp only [List.head?_cons, Option.some_inj]
      intro h; subst h; revert hen; decide
  have c4 : (t.head? = some 'X') = False := by
    simp only [eq_iff_iff, iff_false]
    cases t with
    | nil => simp
    | cons e t' =>
      have hen := isAsciiDigit_iff.mp (hall e (by simp))
      simp only [List.head?_cons, Option.some_inj]
      intro h; subst h; revert hen; decide
  simp only [parseIntJS, hdrop, List.head?_cons, Option.some_inj, List.tail_cons,
    c1, c2, c3, c4, decide_False, Bool.or_self, Bool.or_false, Bool.and_false,
    if_false, Bool.false_eq_true, ite_false]
  rw [takeWhile_eq_self_of_all hall]
  simp

/-! ### Fold helpers -/

theorem foldl_congr_mem {α β : Type} :
    ∀ (l : List α) (a : β) (f g : β → α → β),
      (∀ b x, x ∈ l → f b x = g b x) → l.foldl f a = l.foldl g a
  | [], _, _, _, _ => rfl
  | x :: t, a, f, g, h => by
    simp only [List.foldl_cons]
    rw [h a x (List.mem_cons_self x t)]
    exact foldl_congr_mem t (g a x) f g (fun b y hy => h b y (List.mem_cons_of_mem x hy))

theorem map_id_of_mem {α : Type} {f : α → α} :
    ∀ {l : List α}, (∀ x ∈ l, f x = x) → l.map f = l
  | [], _ => rfl
  | x :: t, h => by
    simp only [List.map_cons, h x (List.mem_cons_self x t)]
    rw [map_id_of_mem (fun y hy => h y (List.mem_cons_of_mem x hy))]

/-! ### The decoder on numeral-alphabet strings -/

theorem mapped_digit_eq {c : Char} (h : isArabicIndicDigit c = true) :
    (arabicIndicDigits c).getD c = Char.ofNat (48 + arabicDigitVal c) := by
  rw [arabicIndicDigits_of_digit h]
  rfl

theorem decDigitVal_mapped {c : Char} (h : isArabicIndicDigit c = true) :
    decDigitVal (Char.ofNat (48 + arabicDigitVal c)) = arabicDigitVal c := by
  simp only [decDigitVal, toNat_mapped_digit h]
  omega

theorem arabicIndicToNumber_all_digits {s : List Char} (hne : s ≠ [])
    (hall : ∀ c ∈ s, isArabicIndicDigit c = true) :
    arabicIndicToNumber s = some ((specDigitsValue s : Nat) : Int) := by
  unfold arabicIndicToNumber
  have hmap : ∀ c ∈ s, (arabicIndicDigits c).getD c = Char.ofNat (48 + arabicDigitVal c) :=
    fun c hc => mapped_digit_eq (hall c hc)
  have hasc : ∀ d ∈ s.map (fun c => (arabicIndicDigits c).getD c), isAsciiDigit d = true := by
    intro d hd
    rw [List.mem_map] at hd
    obtain ⟨c, hc, rfl⟩ := hd
    rw [hmap c hc, isAsciiDigit_iff, toNat_mapped_digit (hall c hc)]
    have := arabicDigitVal_lt_ten (hall c hc)
    omega
  have hnemap : s.map (fun c => (arabicIndicDigits c).getD c) ≠ [] := by
    simp [hne]
  rw [parseIntJS_all_digits hnemap hasc]
  congr 1
  have : digitsBase 10 decDigitVal (s.map (fun c => (arabicIndicDigits c).getD c)) =
      specDigitsValue s := by
    unfold digitsBase specDigitsValue
    rw [List.foldl_map]
    apply foldl_congr_mem
    intro b c hc
    rw [hmap c hc, decDigitVal_mapped (hall c hc)]
  rw [this]

/-! ### `numberToArabicIndic` and the round trip -/

theorem decReprAux_spec : ∀ (fuel n : Nat), n < fuel →
    decReprAux fuel n ≠ [] ∧
    (∀ c ∈ decReprAux fuel n, isAsciiDigit c = true) ∧
    digitsBase 10 decDigitVal (decReprAux fuel n) = n
  | 0, n, h => absurd h (Nat.not_lt_zero n)
  | fuel + 1, n, h => by
    by_cases h10 : n < 10
    · refine ⟨by simp [decReprAux, h10], ?_, ?_⟩
      · intro c hc
        simp only [decReprAux, if_pos h10, List.mem_singleton] at hc
        subst hc
        rw [isAsciiDigit_iff, toNat_charOfNat (by omega)]
        omega
      · simp only [decReprAux, if_pos h10, digitsBase, List.foldl_cons, List.foldl_nil,
          decDigitVal, toNat_charOfNat (show 48 + n < 55296 by omega)]
        omega
    · have hdiv : n / 10 < n := Nat.div_lt_self (by omega) (by omega)
      have hfuel : n / 10 < fuel := by omega
      obtain ⟨ih1, ih2, ih3⟩ := decReprAux_spec fuel (n / 10) hfuel
      have hc : (Char.ofNat (48 + n % 10)).toNat = 48 + n % 10 :=
        toNat_charOfNat (by omega)
      refine ⟨by simp [decReprAux, h10], ?_, ?_⟩
      · intro c hcm
        simp only [decReprAux, if_neg h10, List.mem_append, List.mem_singleton] at hcm
        rcases hcm with hcm | rfl
        · exact ih2 c hcm
        · rw [isAsciiDigit_iff, hc]; omega
      · simp only [decReprAux, if_neg h10, digitsBase, List.foldl_append,
          List.foldl_cons, List.foldl_nil]
        have : (decReprAux fuel (n / 10)).foldl (fun a c => 10 * a + decDigitVal c) 0
            = n / 10 := ih3
        rw [this, decDigitVal, hc]
        omega

theorem decRepr_ne_nil (n : Nat) : decRepr n ≠ [] :=
  (decReprAux_spec (n + 1) n (Nat.lt_succ_self n)).1

theorem decRepr_all_digits (n : Nat) : ∀ c ∈ decRepr n, isAsciiDigit c = true :=
  (decReprAux_spec (n + 1) n (Nat.lt_succ_self n)).2.1

theorem decRepr_value (n : Nat) : digitsBase 10 decDigitVal (decRepr n) = n :=
  (decReprAux_spec (n + 1) n (Nat.lt_succ_self n)).2.2

theorem table_arabicIndicOfAsciiDigit {c : Char} (h : isAsciiDigit c = true) :
    (arabicIndicDigits (arabicIndicOfAsciiDigit c)).getD (arabicIndicOfAsciiDigit c) = c := by
  have hn := isAsciiDigit_iff.mp h
  have ha : (arabicIndicOfAsciiDigit c).toNat = 0x660 + (c.toNat - 48) := by
    unfold arabicIndicOfAsciiDigit
    exact toNat_charOfNat (by omega)
  have harange : isArabicIndicDigit (arabicIndicOfAsciiDigit c) = true := by
    simp only [isArabicIndicDigit, ha, Bool.or_eq_true, Bool.and_eq_true, decide_eq_true_eq]
    omega
  rw [mapped_digit_eq harange]
  have hv : arabicDigitVal (arabicIndicOfAsciiDigit c) = c.toNat - 48 := by
    simp only [arabicDigitVal, ha]
    rw [if_pos (by simp only [Bool.and_eq_true, decide_eq_true_eq]; omega)]
    omega
  rw [hv]
  have : 48 + (c.toNat - 48) = c.toNat := by omega
  rw [this, Char.ofNat_toNat]

theorem numberToArabicIndic_all_digits (n : Nat) :
    ∀ c ∈ numberToArabicIndic n, isArabicIndicDigit c = true := by
  intro c hc
  unfold numberToArabicIndic at hc
  rw [List.mem_map] at hc
  obtain ⟨d, hd, rfl⟩ := hc
  have h := decRepr_all_digits n d hd
  have hn := isAsciiDigit_iff.mp h
  have ha : (arabicIndicOfAsciiDigit d).toNat = 0x660 + (d.toNat - 48) := by
    unfold arabicIndicOfAsciiDigit
    exact toNat_charOfNat (by omega)
  simp only [isArabicIndicDigit, ha, Bool.or_eq_true, Bool.and_eq_true, decide_eq_true_eq]
  omega

theorem numberToArabicIndic_ne_nil (n : Nat) : numberToArabicIndic n ≠ [] := by
  unfold numberToArabicIndic
  simp [decRepr_ne_nil n]

/-- Round trip of the two numeral converters (the key fact behind claim C9
and the idempotence analysis): decoding the rendered marker of `n`
recovers `n`. -/
theorem decode_numberToArabicIndic (n : Nat) :
    arabicIndicToNumber (numberToArabicIndic n) = some (n : Int) := by
  unfold arabicIndicToNumber numberToArabicIndic
  rw [List.map_map]
  have : (decRepr n).map ((fun c => (arabicIndicDigits c).getD c) ∘ arabicIndicOfAsciiDigit)
      = decRepr n := by
    apply map_id_of_mem
    intro c hc
    exact table_arabicIndicOfAsciiDigit (decRepr_all_digits n c hc)
  rw [this, parseIntJS_all_digits (decRepr_ne_nil n) (decRepr_all_digits n),
    decRepr_value n]

/-! ### Double-precision rounding facts -/

theorem log2Fuel_spec : ∀ (fuel v : Nat), 1 ≤ v → v < 2 ^ fuel →
    2 ^ log2Fuel fuel v ≤ v ∧ v < 2 ^ (log2Fuel fuel v + 1)
  | 0, v, h1, h2 => by
    simp only [pow_zero, Nat.lt_one_iff] at h2
    omega
  | fuel + 1, v, h1, h2 => by
    rw [show log2Fuel (fuel + 1) v
        = if v < 2 then 0 else log2Fuel fuel (v / 2) + 1 from rfl]
    by_cases hv : v < 2
    · rw [if_pos hv]
      constructor
      · simpa using h1
      · simpa using hv
    · rw [if_neg hv]
      have hv2 : 1 ≤ v / 2 := by omega
      have hv2' : v / 2 < 2 ^ fuel := by
        rw [pow_succ] at h2
        omega
      obtain ⟨ha, hb⟩ := log2Fuel_spec fuel (v / 2) hv2 hv2'
      constructor
      · rw [pow_succ]
        omega
      · rw [pow_succ]
        omega

theorem natLog2_spec {v : Nat} (h1 : 1 ≤ v) :
    2 ^ natLog2 v ≤ v ∧ v < 2 ^ (natLog2 v + 1) :=
  log2Fuel_spec v v h1 (Nat.lt_two_pow v)

theorem jsRoundToDouble_eq_self {v : Nat} (h : v < 2 ^ 53) :
    jsRoundToDouble v = v := by
  simp only [jsRoundToDouble]
  rw [if_pos h]

theorem jsRoundToDouble_ge {v : Nat} (h : 2 ^ 53 ≤ v) :
    2 ^ 53 ≤ jsRoundToDouble v := by
  have h1 : 1 ≤ v := le_trans (by norm_num) h
  obtain ⟨hlo, hhi⟩ := natLog2_spec h1
  have hL : 53 ≤ natLog2 v := by
    by_contra hc
    push_neg at hc
    have : v < 2 ^ 53 :=
      lt_of_lt_of_le hhi (Nat.pow_le_pow_right (by norm_num) (by omega))
    omega
  simp only [jsRoundToDouble]
  rw [if_neg (by omega)]
  have hq : 2 ^ 52 ≤ v / 2 ^ (natLog2 v - 52) := by
    rw [Nat.le_div_iff_mul_le (Nat.two_pow_pos _)]
    calc 2 ^ 52 * 2 ^ (natLog2 v - 52) = 2 ^ (52 + (natLog2 v - 52)) := by
          rw [pow_add]
    _ = 2 ^ natLog2 v := by
          congr 1
          omega
    _ ≤ v := hlo
  have key : 2 ^ 53 ≤ (v / 2 ^ (natLog2 v - 52)) * 2 ^ (natLog2 v - 52) := by
    calc 2 ^ 53 ≤ 2 ^ (52 + (natLog2 v - 52)) :=
          Nat.pow_le_pow_right (by norm_num) (by omega)
    _ = 2 ^ 52 * 2 ^ (natLog2 v - 52) := by rw [pow_add]
    _ ≤ (v / 2 ^ (natLog2 v - 52)) * 2 ^ (natLog2 v - 52) :=
          Nat.mul_le_mul_right _ hq
  split
  · exact le_trans key (Nat.mul_le_mul_right _ (Nat.le_succ _))
  · exact key

theorem jsRoundToDouble_pos {v : Nat} (h : 1 ≤ v) : 1 ≤ jsRoundToDouble v := by
  by_cases hv : v < 2 ^ 53
  · rw [jsRoundToDouble_eq_self hv]
    exact h
  · have h1 := jsRoundToDouble_ge (v := v) (by omega)
    have h2 : (1 : Nat) ≤ 2 ^ 53 := by norm_num
    omega

/-- The `mathInt`-level decoder and the double-precision decoder agree on
every equality test against a value below 2^53 — in particular on every
sequential-acceptance comparison the segmenter makes. -/
theorem decode_agree_below (s : List Char) (k : Nat) (hk : k < 2 ^ 53) :
    (arabicIndicToNumber s = some (k : Int)) ↔
      (arabicIndicToNumberDouble s = JsNum.finite (k : Int)) := by
  have h2 : (2 : Nat) ^ 53 < 2 ^ 1024 := by norm_num
  cases hp : parseIntJS (s.map (fun c => (arabicIndicDigits c).getD c)) with
  | none =>
    unfold arabicIndicToNumber arabicIndicToNumberDouble parseIntDouble
    rw [hp]
    simp
  | some v =>
    unfold arabicIndicToNumber arabicIndicToNumberDouble parseIntDouble
    rw [hp]
    simp only [Option.some_inj]
    constructor
    · intro hv
      subst hv
      simp only [Int.natAbs_ofNat]
      rw [jsRoundToDouble_eq_self hk]
      rw [if_neg (by omega)]
      rw [if_neg (not_lt.mpr (Int.natCast_nonneg k))]
    · intro h
      split at h
      · exact absurd h (by simp)
      · rename_i hof
        injection h with h
        by_cases hneg : v < 0
        · rw [if_pos hneg] at h
          have hm : 1 ≤ jsRoundToDouble v.natAbs :=
            jsRoundToDouble_pos (v := v.natAbs) (by omega)
          exfalso
          omega
        · rw [if_neg hneg] at h
          have hmk : jsRoundToDouble v.natAbs = k := by exact_mod_cast h
          by_cases hlt : v.natAbs < 2 ^ 53
          · rw [jsRoundToDouble_eq_self hlt] at hmk
            omega
          · have := jsRoundToDouble_ge (v := v.natAbs) (by omega)
            omega

theorem filterMap_eq_map_of_all {f : Char → Char} {p : Char → Bool} :
    ∀ {l : List Char}, (∀ c ∈ l, p c = true) →
      l.filterMap (fun c => if p c then some (f c) else none) = l.map f
  | [], _ => rfl
  | c :: t, h => by
    have hc := h c (List.mem_cons_self c t)
    simp only [List.filterMap_cons, hc, if_true, List.map_cons]
    rw [filterMap_eq_map_of_all (fun x hx => h x (List.mem_cons_of_mem c hx))]

/-! ### Claims C2 and C9 -/

set_option maxRecDepth 8192 in
/-- Counterexample to claim C2 as stated: `parseInt` returns a
double-precision Number, and for the seventeen-nines numeral string the
composed integer 10^17 - 1 is not representable — the source returns the
nearest double, 10^17, instead of the base-10 composition. -/
theorem claim_C2_counterexample :
    arabicIndicToNumberDouble (List.replicate 17 '٩') =
      JsNum.finite ((10 ^ 17 : Nat) : Int) ∧
    specDigitsValue (List.replicate 17 '٩') = 10 ^ 17 - 1 ∧
    ((10 ^ 17 : Nat) : Int) ≠ ((10 ^ 17 - 1 : Nat) : Int) := by
  decide

/-- Claim C2 (amended): for every non-empty string drawn from the two
supported numeral alphabets, the decoder returns the double nearest to the
left-to-right base-10 composition of the digit values (when that rounding
stays below the Infinity threshold 2^1024); in particular it returns
exactly the composed integer whenever the composition is below 2^53, the
double-precision exact-integer range. -/
theorem claim_C2_amended (s : List Char) (hne : s ≠ [])
    (hall : ∀ c ∈ s, isArabicIndicDigit c = true) :
    (jsRoundToDouble (specDigitsValue s) < 2 ^ 1024 →
      arabicIndicToNumberDouble s =
        JsNum.finite ((jsRoundToDouble (specDigitsValue s) : Nat) : Int)) ∧
    (specDigitsValue s < 2 ^ 53 →
      arabicIndicToNumberDouble s = JsNum.finite ((specDigitsValue s : Nat) : Int)) := by
  have hexact : arabicIndicToNumber s = some ((specDigitsValue s : Nat) : Int) :=
    arabicIndicToNumber_all_digits hne hall
  unfold arabicIndicToNumber at hexact
  have hgen : jsRoundToDouble (specDigitsValue s) < 2 ^ 1024 →
      arabicIndicToNumberDouble s =
        JsNum.finite ((jsRoundToDouble (specDigitsValue s) : Nat) : Int) := by
    intro hof
    unfold arabicIndicToNumberDouble parseIntDouble
    rw [hexact]
    simp only [Int.natAbs_ofNat]
    rw [if_neg (by omega)]
    rw [if_neg (not_lt.mpr (Int.natCast_nonneg _))]
  refine ⟨hgen, ?_⟩
  intro hlt
  have h2 : (2 : Nat) ^ 53 < 2 ^ 1024 := by norm_num
  have h := hgen (by rw [jsRoundToDouble_eq_self hlt]; omega)
  rwa [jsRoundToDouble_eq_self hlt] at h

/-- Witness for the amended claim C2: the three-character strings for the
digits 1,0,2 in either alphabet decode to exactly 102. -/
theorem claim_C2_amended_witness :
    arabicIndicToNumberDouble "١٠٢".data = JsNum.finite (102 : Int) ∧
    arabicIndicToNumberDouble "۱۰۲".data = JsNum.finite (102 : Int) := by
  constructor
  · have h := (claim_C2_amended "١٠٢".data (by decide) (by decide)).2 (by decide)
    rwa [show specDigitsValue "١٠٢".data = 102 from by decide] at h
  · have h := (claim_C2_amended "۱۰۲".data (by decide) (by decide)).2 (by decide)
    rwa [show specDigitsValue "۱۰۲".data = 102 from by decide] at h

set_option maxRecDepth 8192 in
/-- Counterexample to claim C9 as stated: at n = 10^21, `String(num)`
switches to the exponential notation "1e+21"; `numberToArabicIndic` maps
its digit characters and drops `e` and `+`, producing "١٢١", which decodes
to 121, not 10^21. -/
theorem claim_C9_counterexample :
    numberToArabicIndicFull (10 ^ 21) = "١٢١".data ∧
    arabicIndicToNumberDouble (numberToArabicIndicFull (10 ^ 21)) =
      JsNum.finite (121 : Int) ∧
    (121 : Int) ≠ ((10 ^ 21 : Nat) : Int) := by
  decide

/-- Claim C9 (amended): for every non-negative integer below 10^21 (the
plain-decimal range of `String`) that is exactly representable as a double
(so that the `parseInt` on the way back recovers it exactly), decoding the
display string returns the number. -/
theorem claim_C9_amended (n : Nat) (h21 : n < 10 ^ 21)
    (hrep : jsRoundToDouble n = n) :
    arabicIndicToNumberDouble (numberToArabicIndicFull n) = JsNum.finite (n : Int) := by
  have hfull : numberToArabicIndicFull n = numberToArabicIndic n := by
    unfold numberToArabicIndicFull jsStringOfNat
    rw [if_pos h21]
    exact filterMap_eq_map_of_all (decRepr_all_digits n)
  rw [hfull]
  have hexact := decode_numberToArabicIndic n
  unfold arabicIndicToNumber at hexact
  unfold arabicIndicToNumberDouble parseIntDouble
  rw [hexact]
  simp only [Int.natAbs_ofNat]
  rw [hrep]
  have h10 : (10 : Nat) ^ 21 < 2 ^ 1024 := by norm_num
  rw [if_neg (by omega)]
  rw [if_neg (not_lt.mpr (Int.natCast_nonneg n))]

/-- Witness for the amended claim C9 at a concrete representable number. -/
theorem claim_C9_amended_witness :
    arabicIndicToNumberDouble (numberToArabicIndicFull 102) = JsNum.finite (102 : Int) :=
  claim_C9_amended 102 (by norm_num) (by decide)

/-! ### The loop invariant of the sequential acceptance scan -/

/-- Invariant of the accumulation loop: emitted verse numbers are strictly
increasing, at least 1, and below the next expected number, which is itself
at least 1. -/
def ScanInv (st : ScanState) : Prop :=
  st.verses.Pairwise (fun a b => a.number < b.number) ∧
  (∀ v ∈ st.verses, 1 ≤ v.number ∧ v.number < st.expectedVerseNum) ∧
  1 ≤ st.expectedVerseNum

theorem scanInv_init : ScanInv initState := by
  refine ⟨List.Pairwise.nil, ?_, le_refl 1⟩
  intro v hv
  simp [initState] at hv

theorem scanInv_flush {st : ScanState} (h : ScanInv st) : ScanInv (flushVerse st) := by
  obtain ⟨hp, hb, he⟩ := h
  simp only [flushVerse]
  by_cases hempty : (jsTrim st.currentText).isEmpty
  · rw [if_pos hempty]
    exact ⟨hp, fun v hv => ⟨(hb v hv).1, Nat.lt_succ_of_lt (hb v hv).2⟩,
      Nat.le_succ_of_le he⟩
  · rw [if_neg hempty]
    refine ⟨?_, ?_, Nat.le_succ_of_le he⟩
    · rw [List.pairwise_append]
      exact ⟨hp, List.pairwise_singleton _ _,
        fun a ha b hbm => by
          rw [List.mem_singleton] at hbm
          subst hbm
          exact (hb a ha).2⟩
    · intro v hv
      rw [List.mem_append, List.mem_singleton] at hv
      rcases hv with hv | rfl
      · exact ⟨(hb v hv).1, Nat.lt_succ_of_lt (hb v hv).2⟩
      · exact ⟨he, Nat.lt_succ_self _⟩

theorem scanInv_stepMid {st : ScanState} (h : ScanInv st) (part : List Char) :
    ScanInv (stepMid st part) := by
  obtain ⟨hp, hb, he⟩ := h
  unfold stepMid
  split
  · split
    · exact scanInv_flush ⟨hp, hb, he⟩
    · exact ⟨hp, hb, he⟩
  · exact ⟨hp, hb, he⟩

theorem scanInv_stepEnd {st : ScanState} (h : ScanInv st) (part : List Char) :
    ScanInv (stepEnd st part) := by
  obtain ⟨hp, hb, he⟩ := h
  unfold stepEnd
  split
  · split
    · exact scanInv_flush ⟨hp, hb, he⟩
    · exact ⟨hp, hb, he⟩
  · exact ⟨hp, hb, he⟩

theorem scanInv_foldl {step : ScanState → List Char → ScanState}
    (hstep : ∀ st part, ScanInv st → ScanInv (step st part)) :
    ∀ (parts : List (List Char)) (st : ScanState), ScanInv st →
      ScanInv (parts.foldl step st)
  | [], _, h => h
  | p :: ps, st, h =>
    scanInv_foldl hstep ps (step st p) (hstep st p h)

/-- Verses produced by the epilogue keep strictly increasing numbers, all
at least 1. -/
theorem finalizeScan_sorted {st : ScanState} (h : ScanInv st) :
    (finalizeScan st).Pairwise (fun a b => a.number < b.number) ∧
    ∀ v ∈ finalizeScan st, 1 ≤ v.number := by
  obtain ⟨hp, hb, he⟩ := h
  simp only [finalizeScan]
  by_cases hempty : (jsTrim st.currentText).isEmpty
  · rw [if_pos hempty]
    exact ⟨hp, fun v hv => (hb v hv).1⟩
  · rw [if_neg hempty]
    constructor
    · rw [List.pairwise_append]
      exact ⟨hp, List.pairwise_singleton _ _,
        fun a ha b hbm => by
          rw [List.mem_singleton] at hbm
          subst hbm
          exact (hb a ha).2⟩
    · intro v hv
      rw [List.mem_append, List.mem_singleton] at hv
      rcases hv with hv | rfl
      · exact (hb v hv).1
      · exact he

theorem pairwise_le_get :
    ∀ (l : List Verse) (k : Nat),
      l.Pairwise (fun a b => a.number < b.number) → (∀ v ∈ l, k ≤ v.number) →
      ∀ (i : Nat) (h : i < l.length), k + i ≤ (l.get ⟨i, h⟩).number
  | [], _, _, _, i, h => absurd h (by simp)
  | a :: t, k, hp, hb, 0, h => by
    simpa using hb a (List.mem_cons_self a t)
  | a :: t, k, hp, hb, i + 1, h => by
    have hpt := (List.pairwise_cons.mp hp).2
    have hat := (List.pairwise_cons.mp hp).1
    have hbt : ∀ v ∈ t, k + 1 ≤ v.number := by
      intro v hv
      have h1 := hat v hv
      have h2 := hb a (List.mem_cons_self a t)
      omega
    have := pairwise_le_get t (k + 1) hpt hbt i (by simpa using h)
    simpa [Nat.add_comm, Nat.add_assoc, Nat.add_left_comm] using this

/-! ### Claims C10 and C1 -/

/-- Both parsers only emit strictly increasing verse numbers bounded below
by 1 (shared helper behind claims C10 and C1). -/
theorem parse_sorted_ge_one (content : List Char) :
    ((Mid.parseVersesFromContent content).Pairwise (fun a b => a.number < b.number) ∧
      ∀ v ∈ Mid.parseVersesFromContent content, 1 ≤ v.number) ∧
    ((EndUnit.parseVersesFromContent content).Pairwise (fun a b => a.number < b.number) ∧
      ∀ v ∈ EndUnit.parseVersesFromContent content, 1 ≤ v.number) := by
  constructor
  · exact finalizeScan_sorted
      (scanInv_foldl (fun st p h => scanInv_stepMid h p) (jsSplitMid content) initState
        scanInv_init)
  · exact finalizeScan_sorted
      (scanInv_foldl (fun st p h => scanInv_stepEnd h p) (jsSplitEnd content) initState
        scanInv_init)

/-- Claim C10: for every input string and in both conventions, the sequence
of `number` values in the returned verse list is strictly increasing and
every value is at least 1. -/
theorem claim_C10_strict_mono (content : List Char) :
    ((Mid.parseVersesFromContent content).Pairwise (fun a b => a.number < b.number) ∧
      ∀ v ∈ Mid.parseVersesFromContent content, 1 ≤ v.number) ∧
    ((EndUnit.parseVersesFromContent content).Pairwise (fun a b => a.number < b.number) ∧
      ∀ v ∈ EndUnit.parseVersesFromContent content, 1 ≤ v.number) :=
  parse_sorted_ge_one content

/-- Witness for claim C10 at a concrete input and concrete list member. -/
theorem claim_C10_strict_mono_witness :
    1 ≤ (Verse.mk 1 "ابج".data).number :=
  ((claim_C10_strict_mono "ابج ١".data).2.2 (Verse.mk 1 "ابج".data) (by decide))

/-- Counterexample to claim C1 as stated: when the very first marker closes
an empty segment the verse is dropped but the expected number still
advances, so the emitted list starts at sequence number 2 instead of 1, in
both conventions. -/
theorem claim_C1_counterexample :
    (EndUnit.parseVersesFromContent "١ ابج ٢".data).map Verse.number = [2] ∧
    (Mid.parseVersesFromContent " ١ ابج ٢".data).map Verse.number = [2] ∧
    (2 : Nat) ≠ 0 + 1 := by decide

/-- Claim C1 (amended): in both conventions, `units[i].sequenceNumber` is at
least `i + 1`; equality can fail when an accepted marker closes an
empty-after-trimming segment, which is dropped while the expected number
still advances. -/
theorem claim_C1_amended (content : List Char) :
    (∀ (i : Nat) (h : i < (Mid.parseVersesFromContent content).length),
      i + 1 ≤ ((Mid.parseVersesFromContent content).get ⟨i, h⟩).number) ∧
    (∀ (i : Nat) (h : i < (EndUnit.parseVersesFromContent content).length),
      i + 1 ≤ ((EndUnit.parseVersesFromContent content).get ⟨i, h⟩).number) := by
  have hm := (parse_sorted_ge_one content).1
  have he := (parse_sorted_ge_one content).2
  constructor
  · intro i h
    have := pairwise_le_get _ 1 hm.1 hm.2 i h
    omega
  · intro i h
    have := pairwise_le_get _ 1 he.1 he.2 i h
    omega

/-- Witness for the amended claim C1 at a concrete input and index. -/
theorem claim_C1_amended_witness :
    0 + 1 ≤ ((Mid.parseVersesFromContent "ابج ١".data).get ⟨0, by decide⟩).number ∧
    0 + 1 ≤ ((EndUnit.parseVersesFromContent "ابج ١".data).get ⟨0, by decide⟩).number :=
  ⟨(claim_C1_amended "ابج ١".data).1 0 (by decide),
   (claim_C1_amended "ابج ١".data).2 0 (by decide)⟩

/-! ### Claims C3 and C5 -/

/-- Claim C3: under the mid-stream convention, both markers of the content
are rejected as non-sequential (10 and then 2, while 1 is expected), are
absorbed as text, and the scan yields exactly the single unit 1 carrying
the whole content. -/
theorem claim_C3_midstream_rejection :
    Mid.parseVersesFromContent "الٓرۚ تِلۡكَ ١٠ ءَايَٰتُ ٢".data =
      [⟨1, "الٓرۚ تِلۡكَ ١٠ ءَايَٰتُ ٢".data⟩] := by
  decide

/-- Counterexample to claim C5 as stated: in the end-of-unit convention a
rejected candidate is appended to the buffer with no separating space (and
surrounding fragments are concatenated verbatim), so the resulting unit
text glues the marker to its neighbours instead of keeping single spaces. -/
theorem claim_C5_counterexample :
    EndUnit.parseVersesFromContent "ابج٣ ده".data = [⟨1, "ابج٣ده".data⟩] ∧
    "ابج٣ده".data ≠ "ابج ٣ ده".data := by
  decide

/-- Claim C5 (amended): only the mid-stream convention appends a rejected
candidate preceded by a single space and joins non-candidate fragments with
a single space (when the buffer is non-empty); the end-of-unit convention
appends rejected candidates and fragments verbatim with no separator. -/
theorem claim_C5_amended (st : ScanState) (part : List Char) :
    (isVerseNumStr part = true →
      arabicIndicToNumber part ≠ some (st.expectedVerseNum : Int) →
      stepMid st part = { st with currentText := st.currentText ++ ' ' :: part } ∧
      stepEnd st part = { st with currentText := st.currentText ++ part }) ∧
    (isVerseNumStr part = false →
      stepMid st part = { st with currentText :=
        st.currentText ++ (if st.currentText.isEmpty then [] else [' ']) ++ part } ∧
      stepEnd st part = { st with currentText := st.currentText ++ part }) := by
  constructor
  · intro h1 h2
    constructor <;> simp [stepMid, stepEnd, h1, h2]
  · intro h1
    constructor <;> simp [stepMid, stepEnd, h1]

/-- Witness for the amended claim C5: rejecting the candidate `"٣"` over the
buffer `"ابج"` inserts a space in the mid-stream convention and does not in
the end-of-unit convention. -/
theorem claim_C5_amended_witness :
    stepMid ⟨[], "ابج".data, 1⟩ "٣".data = ⟨[], "ابج ٣".data, 1⟩ ∧
    stepEnd ⟨[], "ابج".data, 1⟩ "٣".data = ⟨[], "ابج٣".data, 1⟩ := by
  have h := (claim_C5_amended ⟨[], "ابج".data, 1⟩ "٣".data).1 (by decide) (by decide)
  refine ⟨?_, ?_⟩
  · rw [h.1]; decide
  · rw [h.2]; decide

/-! ### Structure lemmas for the match scanners -/

theorem scanMid_cons_none (run : List Char) (c : Char) (rest : List Char) :
    scanMid none run (c :: rest) =
      if jsIsSpace c then scanMid (some c) [] rest
      else (scanMid none [] rest).map (fun x => (c :: x.1, x.2.1, x.2.2)) := rfl

theorem scanMid_cons_some (s : Char) (run : List Char) (c : Char) (rest : List Char) :
    scanMid (some s) run (c :: rest) =
      if isArabicIndicDigit c then scanMid (some s) (c :: run) rest
      else if run.isEmpty then
        if jsIsSpace c then
          (scanMid (some c) [] rest).map (fun x => (s :: x.1, x.2.1, x.2.2))
        else (scanMid none [] rest).map (fun x => (s :: c :: x.1, x.2.1, x.2.2))
      else
        if jsIsSpace c then some ([], run.reverse, rest)
        else (scanMid none [] rest).map
          (fun x => ((s :: run.reverse) ++ c :: x.1, x.2.1, x.2.2)) := by
  cases run with
  | nil => rfl
  | cons r rs => rfl

theorem scanEnd_cons (run : List Char) (c : Char) (rest : List Char) :
    scanEnd run (c :: rest) =
      if isArabicIndicDigit c then scanEnd (c :: run) rest
      else if run.isEmpty then
        (scanEnd [] rest).map (fun x => (c :: x.1, x.2.1, x.2.2))
      else
        if jsIsSpace c then some ([], run.reverse, rest)
        else (scanEnd [] rest).map (fun x => (run.reverse ++ c :: x.1, x.2.1, x.2.2)) := by
  cases run with
  | nil => rfl
  | cons r rs => rfl

/-- Inversion helper: a mapped scanner result that changes only the prefix
component determines the suffix component of the underlying result. -/
theorem map_scan_inv {pre cap post : List Char}
    (f : List Char × List Char × List Char → List Char)
    (o : Option (List Char × List Char × List Char))
    (hm : (o.map (fun x => (f x, x.2.1, x.2.2))) = some (pre, cap, post)) :
    ∃ p1 c1, o = some (p1, c1, post) := by
  rw [Option.map_eq_some'] at hm
  obtain ⟨⟨p1, c1, p2⟩, hx, hf⟩ := hm
  simp only [Prod.mk.injEq] at hf
  exact ⟨p1, c1, hf.2.2 ▸ hx⟩

theorem scanMid_post_length :
    ∀ (s : List Char) (sp : Option Char) (run pre cap post : List Char),
      scanMid sp run s = some (pre, cap, post) → post.length ≤ s.length := by
  intro s
  induction s with
  | nil =>
    intro sp run pre cap post h
    cases sp with
    | none => simp [scanMid] at h
    | some c =>
      cases run with
      | nil => simp [scanMid] at h
      | cons r rs =>
        rw [show scanMid (some c) (r :: rs) [] = some ([], (r :: rs).reverse, []) from rfl]
          at h
        simp only [Option.some_inj, Prod.mk.injEq] at h
        obtain ⟨-, -, h3⟩ := h
        subst h3
        simp
  | cons c rest ih =>
    intro sp run pre cap post h
    cases sp with
    | none =>
      rw [scanMid_cons_none] at h
      split at h
      · have := ih _ _ _ _ _ h
        simp only [List.length_cons]
        omega
      · obtain ⟨p1, c1, hx⟩ := map_scan_inv _ _ h
        have := ih _ _ _ _ _ hx
        simp only [List.length_cons]
        omega
    | some sc =>
      rw [scanMid_cons_some] at h
      split at h
      · have := ih _ _ _ _ _ h
        simp only [List.length_cons]
        omega
      · split at h
        · split at h
          · obtain ⟨p1, c1, hx⟩ := map_scan_inv _ _ h
            have := ih _ _ _ _ _ hx
            simp only [List.length_cons]
            omega
          · obtain ⟨p1, c1, hx⟩ := map_scan_inv _ _ h
            have := ih _ _ _ _ _ hx
            simp only [List.length_cons]
            omega
        · split at h
          · simp only [Option.some_inj, Prod.mk.injEq] at h
            obtain ⟨-, -, h3⟩ := h
            subst h3
            simp
          · obtain ⟨p1, c1, hx⟩ := map_scan_inv _ _ h
            have := ih _ _ _ _ _ hx
            simp only [List.length_cons]
            omega

theorem scanEnd_post_length :
    ∀ (s : List Char) (run pre cap post : List Char),
      scanEnd run s = some (pre, cap, post) → post.length ≤ s.length := by
  intro s
  induction s with
  | nil =>
    intro run pre cap post h
    cases run with
    | nil => simp [scanEnd] at h
    | cons r rs =>
      rw [show scanEnd (r :: rs) [] = some ([], (r :: rs).reverse, []) from rfl] at h
      simp only [Option.some_inj, Prod.mk.injEq] at h
      obtain ⟨-, -, h3⟩ := h
      subst h3
      simp
  | cons c rest ih =>
    intro run pre cap post h
    rw [scanEnd_cons] at h
    split at h
    · have := ih _ _ _ _ h
      simp only [List.length_cons]
      omega
    · split at h
      · obtain ⟨p1, c1, hx⟩ := map_scan_inv _ _ h
        have := ih _ _ _ _ hx
        simp only [List.length_cons]
        omega
      · split at h
        · simp only [Option.some_inj, Prod.mk.injEq] at h
          obtain ⟨-, -, h3⟩ := h
          subst h3
          simp
        · obtain ⟨p1, c1, hx⟩ := map_scan_inv _ _ h
          have := ih _ _ _ _ hx
          simp only [List.length_cons]
          omega

/-- Every successful mid-stream match consumes at least one character. -/
theorem findMidMatch_post_lt {s pre cap post : List Char}
    (h : findMidMatch s = some (pre, cap, post)) : post.length < s.length := by
  cases s with
  | nil => simp [findMidMatch, scanMid] at h
  | cons c rest =>
    unfold findMidMatch at h
    rw [scanMid_cons_none] at h
    split at h
    · have := scanMid_post_length rest (some c) [] pre cap post h
      simp only [List.length_cons]
      omega
    · obtain ⟨p1, c1, hx⟩ := map_scan_inv _ _ h
      have := scanMid_post_length rest none [] p1 c1 post hx
      simp only [List.length_cons]
      omega

/-- Every successful end-of-unit match consumes at least one character. -/
theorem findEndMatch_post_lt {s pre cap post : List Char}
    (h : findEndMatch s = some (pre, cap, post)) : post.length < s.length := by
  cases s with
  | nil => simp [findEndMatch, scanEnd] at h
  | cons c rest =>
    unfold findEndMatch at h
    rw [scanEnd_cons] at h
    split at h
    · have := scanEnd_post_length rest [c] pre cap post h
      simp only [List.length_cons]
      omega
    · simp only [List.isEmpty_nil, if_true] at h
      obtain ⟨p1, c1, hx⟩ := map_scan_inv _ _ h
      have := scanEnd_post_length rest [] p1 c1 post hx
      simp only [List.length_cons]
      omega

/-! ### Fuel irrelevance of the split loop -/

theorem splitLoop_fuel_eq
    {find : List Char → Option (List Char × List Char × List Char)}
    (hf : ∀ s pre cap post, find s = some (pre, cap, post) → post.length < s.length) :
    ∀ (fuel₁ fuel₂ : Nat) (s : List Char), s.length < fuel₁ → s.length < fuel₂ →
      splitLoop find fuel₁ s = splitLoop find fuel₂ s := by
  intro fuel₁
  induction fuel₁ with
  | zero =>
    intro fuel₂ s h1 h2
    omega
  | succ n ih =>
    intro fuel₂ s h1 h2
    cases fuel₂ with
    | zero => omega
    | succ m =>
      cases hfind : find s with
      | none => simp [splitLoop, hfind]
      | some x =>
        obtain ⟨pre, cap, post⟩ := x
        have hlt := hf s pre cap post hfind
        simp only [splitLoop, hfind]
        rw [ih m post (by omega) (by omega)]

theorem jsSplitMid_cons_of_find {s pre cap post : List Char}
    (h : findMidMatch s = some (pre, cap, post)) :
    jsSplitMid s = pre :: cap :: jsSplitMid post := by
  have hlt := findMidMatch_post_lt h
  have e1 : splitLoop findMidMatch (s.length + 1) s
      = pre :: cap :: splitLoop findMidMatch s.length post := by
    simp [splitLoop, h]
  unfold jsSplitMid
  rw [e1, splitLoop_fuel_eq (fun s pre cap post hh => findMidMatch_post_lt hh)
    s.length (post.length + 1) post (by omega) (by omega)]

theorem jsSplitMid_of_none {s : List Char} (h : findMidMatch s = none) :
    jsSplitMid s = [s] := by
  simp [jsSplitMid, splitLoop, h]

theorem jsSplitEnd_cons_of_find {s pre cap post : List Char}
    (h : findEndMatch s = some (pre, cap, post)) :
    jsSplitEnd s = pre :: cap :: jsSplitEnd post := by
  have hlt := findEndMatch_post_lt h
  have e1 : splitLoop findEndMatch (s.length + 1) s
      = pre :: cap :: splitLoop findEndMatch s.length post := by
    simp [splitLoop, h]
  unfold jsSplitEnd
  rw [e1, splitLoop_fuel_eq (fun s pre cap post hh => findEndMatch_post_lt hh)
    s.length (post.length + 1) post (by omega) (by omega)]

theorem jsSplitEnd_of_none {s : List Char} (h : findEndMatch s = none) :
    jsSplitEnd s = [s] := by
  simp [jsSplitEnd, splitLoop, h]

/-! ### Claim C7 -/

/-- Claim C7: both segmenter functions are total — on every input string the
scanning recursion terminates within its fuel bound (the result does not
depend on the fuel once it exceeds the input length) and a (possibly empty)
verse list is returned; no error value exists in the model, mirroring the
absence of any throw in the source. -/
theorem claim_C7_never_raises (content : List Char) (fuel : Nat)
    (h : content.length < fuel) :
    splitLoop findMidMatch fuel content = jsSplitMid content ∧
    splitLoop findEndMatch fuel content = jsSplitEnd content ∧
    (∃ vs : List Verse, Mid.parseVersesFromContent content = vs) ∧
    (∃ vs : List Verse, EndUnit.parseVersesFromContent content = vs) := by
  refine ⟨?_, ?_, ⟨_, rfl⟩, ⟨_, rfl⟩⟩
  · exact splitLoop_fuel_eq (fun s pre cap post hh => findMidMatch_post_lt hh)
      fuel (content.length + 1) content h (Nat.lt_succ_self _)
  · exact splitLoop_fuel_eq (fun s pre cap post hh => findEndMatch_post_lt hh)
      fuel (content.length + 1) content h (Nat.lt_succ_self _)

/-- Witness for claim C7 at a concrete input and fuel. -/
theorem claim_C7_never_raises_witness :
    splitLoop findMidMatch 10 "ابج ١".data = jsSplitMid "ابج ١".data ∧
    splitLoop findEndMatch 10 "ابج ١".data = jsSplitEnd "ابج ١".data ∧
    (∃ vs : List Verse, Mid.parseVersesFromContent "ابج ١".data = vs) ∧
    (∃ vs : List Verse, EndUnit.parseVersesFromContent "ابج ١".data = vs) :=
  claim_C7_never_raises "ابج ١".data 10 (by decide)

/-! ### Claim C6: boundary behaviour -/

theorem scanMid_none_of_no_digit :
    ∀ (s : List Char) (sp : Option Char),
      (∀ c ∈ s, isArabicIndicDigit c = false) → scanMid sp [] s = none := by
  intro s
  induction s with
  | nil =>
    intro sp h
    cases sp with
    | none => rfl
    | some c => rfl
  | cons c rest ih =>
    intro sp h
    have hc : isArabicIndicDigit c = false := h c (List.mem_cons_self c rest)
    have hrest : ∀ x ∈ rest, isArabicIndicDigit x = false :=
      fun x hx => h x (List.mem_cons_of_mem c hx)
    cases sp with
    | none =>
      rw [scanMid_cons_none]
      split
      · exact ih (some c) hrest
      · rw [ih none hrest]
        rfl
    | some sc =>
      rw [scanMid_cons_some, hc]
      simp only [Bool.false_eq_true, if_false, List.isEmpty_nil, if_true]
      split
      · rw [ih (some c) hrest]
        rfl
      · rw [ih none hrest]
        rfl

theorem scanEnd_none_of_no_digit :
    ∀ (s : List Char), (∀ c ∈ s, isArabicIndicDigit c = false) → scanEnd [] s = none := by
  intro s
  induction s with
  | nil => intro h; rfl
  | cons c rest ih =>
    intro h
    have hc : isArabicIndicDigit c = false := h c (List.mem_cons_self c rest)
    have hrest : ∀ x ∈ rest, isArabicIndicDigit x = false :=
      fun x hx => h x (List.mem_cons_of_mem c hx)
    rw [scanEnd_cons, hc]
    simp only [Bool.false_eq_true, if_false, List.isEmpty_nil, if_true]
    rw [ih hrest]
    rfl

theorem jsTrim_eq_nil_of_all_space {s : List Char}
    (h : ∀ c ∈ s, jsIsSpace c = true) : jsTrim s = [] := by
  unfold jsTrim
  rw [List.dropWhile_eq_nil_iff.mpr (fun x hx => h x hx)]
  rfl

theorem isVerseNumStr_false_of_no_digit {s : List Char}
    (h : ∀ c ∈ s, isArabicIndicDigit c = false) : isVerseNumStr s = false := by
  cases s with
  | nil => rfl
  | cons c t =>
    have hc := h c (List.mem_cons_self c t)
    simp [isVerseNumStr, hc]

/-- On digit-free content both parsers degenerate to "trim and emit as unit
1 unless empty". -/
theorem parse_no_digit {content : List Char}
    (h : ∀ c ∈ content, isArabicIndicDigit c = false) :
    Mid.parseVersesFromContent content =
      (if (jsTrim content).isEmpty then [] else [⟨1, jsTrim content⟩]) ∧
    EndUnit.parseVersesFromContent content =
      (if (jsTrim content).isEmpty then [] else [⟨1, jsTrim content⟩]) := by
  have hmid : jsSplitMid content = [content] :=
    jsSplitMid_of_none (scanMid_none_of_no_digit content none h)
  have hend : jsSplitEnd content = [content] :=
    jsSplitEnd_of_none (scanEnd_none_of_no_digit content h)
  have hnum := isVerseNumStr_false_of_no_digit h
  constructor
  · show finalizeScan ((jsSplitMid content).foldl stepMid initState) = _
    rw [hmid]
    simp only [List.foldl_cons, List.foldl_nil]
    rw [show stepMid initState content = ⟨[], content, 1⟩ by
      simp [stepMid, hnum, initState]]
    simp [finalizeScan]
  · show finalizeScan ((jsSplitEnd content).foldl stepEnd initState) = _
    rw [hend]
    simp only [List.foldl_cons, List.foldl_nil]
    rw [show stepEnd initState content = ⟨[], content, 1⟩ by
      simp [stepEnd, hnum, initState]]
    simp [finalizeScan]

/-- Claim C6: in both conventions, whitespace-only content yields an empty
unit list; digit-free content with non-empty trimmed text yields exactly the
unit `(1, trimmed content)`; and whenever the accumulation buffer ends the
scan with non-empty trimmed text, exactly one final unit numbered with the
current expected value is appended. -/
theorem claim_C6_boundaries :
    (∀ cs : List Char, (∀ c ∈ cs, jsIsSpace c = true) →
      Mid.parseVersesFromContent cs = [] ∧ EndUnit.parseVersesFromContent cs = []) ∧
    (∀ cs : List Char, (∀ c ∈ cs, isArabicIndicDigit c = false) → jsTrim cs ≠ [] →
      Mid.parseVersesFromContent cs = [⟨1, jsTrim cs⟩] ∧
      EndUnit.parseVersesFromContent cs = [⟨1, jsTrim cs⟩]) ∧
    (∀ st : ScanState, jsTrim st.currentText ≠ [] →
      finalizeScan st = st.verses ++ [⟨st.expectedVerseNum, jsTrim st.currentText⟩]) := by
  refine ⟨?_, ?_, ?_⟩
  · intro cs hsp
    have hnd : ∀ c ∈ cs, isArabicIndicDigit c = false := by
      intro c hc
      have h1 := hsp c hc
      have h2 : jsIsSpace c = true → isArabicIndicDigit c = false := by
        simp only [jsIsSpace, isArabicIndicDigit, Bool.or_eq_true, Bool.and_eq_true,
          decide_eq_true_eq, Bool.or_eq_false_iff, Bool.and_eq_false_iff,
          decide_eq_false_iff_not]
        omega
      exact h2 h1
    have hnil : jsTrim cs = [] := jsTrim_eq_nil_of_all_space hsp
    have h := parse_no_digit hnd
    rw [hnil] at h
    simpa using h
  · intro cs hnd hne
    have h := parse_no_digit hnd
    rw [if_neg (by simpa [List.isEmpty_iff] using hne)] at h
    exact h
  · intro st hne
    simp only [finalizeScan]
    rw [if_neg (by simpa [List.isEmpty_iff] using hne)]

/-- Witness for claim C6 at concrete inputs. -/
theorem claim_C6_boundaries_witness :
    (Mid.parseVersesFromContent "  ".data = [] ∧
      EndUnit.parseVersesFromContent "  ".data = []) ∧
    (Mid.parseVersesFromContent " ابج ".data = [⟨1, jsTrim " ابج ".data⟩] ∧
      EndUnit.parseVersesFromContent " ابج ".data = [⟨1, jsTrim " ابج ".data⟩]) ∧
    finalizeScan ⟨[], "ابج".data, 3⟩ = [⟨3, jsTrim "ابج".data⟩] :=
  ⟨claim_C6_boundaries.1 "  ".data (by decide),
   claim_C6_boundaries.2.1 " ابج ".data (by decide) (by decide),
   claim_C6_boundaries.2.2 ⟨[], "ابج".data, 3⟩ (by decide)⟩

/-! ### Trim lemmas -/

theorem not_digit_of_space {c : Char} (h : jsIsSpace c = true) :
    isArabicIndicDigit c = false := by
  simp only [jsIsSpace, Bool.or_eq_true, Bool.and_eq_true, decide_eq_true_eq] at h
  simp only [isArabicIndicDigit, Bool.or_eq_false_iff, Bool.and_eq_false_iff,
    decide_eq_false_iff_not]
  omega

theorem dropWhile_parts_of_trim {t : List Char} (h : jsTrim t = t) :
    t.dropWhile jsIsSpace = t ∧ t.reverse.dropWhile jsIsSpace = t.reverse := by
  have h1 : (t.dropWhile jsIsSpace).length ≤ t.length :=
    (List.dropWhile_suffix jsIsSpace).length_le
  have h2 : ((t.dropWhile jsIsSpace).reverse.dropWhile jsIsSpace).length ≤
      (t.dropWhile jsIsSpace).length := by
    have := (List.dropWhile_suffix (l := (t.dropWhile jsIsSpace).reverse) jsIsSpace).length_le
    simpa using this
  have hlen : (jsTrim t).length = t.length := by rw [h]
  have hlen2 : (jsTrim t).length =
      ((t.dropWhile jsIsSpace).reverse.dropWhile jsIsSpace).length := by
    simp [jsTrim]
  have hd : t.dropWhile jsIsSpace = t :=
    (List.dropWhile_suffix jsIsSpace).eq_of_length (by omega)
  refine ⟨hd, ?_⟩
  have : ((t.dropWhile jsIsSpace).reverse.dropWhile jsIsSpace).reverse = t := h
  rw [hd] at this
  have := congrArg List.reverse this
  simpa using this

theorem head_not_space_of_trim {c : Char} {t : List Char}
    (h : jsTrim (c :: t) = c :: t) : jsIsSpace c = false := by
  have hd := (dropWhile_parts_of_trim h).1
  by_contra hc
  rw [Bool.not_eq_false] at hc
  rw [List.dropWhile_cons_of_pos hc] at hd
  have : (t.dropWhile jsIsSpace).length ≤ t.length :=
    (List.dropWhile_suffix jsIsSpace).length_le
  have := congrArg List.length hd
  simp at this
  omega

theorem jsTrim_append_space {t : List Char} (hne : t ≠ []) (h : jsTrim t = t) :
    jsTrim (t ++ [' ']) = t := by
  obtain ⟨c, t', rfl⟩ := List.exists_cons_of_ne_nil hne
  have hh := head_not_space_of_trim h
  have hr := (dropWhile_parts_of_trim h).2
  unfold jsTrim
  rw [List.cons_append, List.dropWhile_cons_of_neg (by simp [hh])]
  rw [show (c :: (t' ++ [' '])).reverse = ' ' :: (c :: t').reverse by simp]
  rw [List.dropWhile_cons_of_pos (by decide), hr]
  simp

theorem jsTrim_eq_self_of_ends {s : List Char}
    (hh : ∀ c, s.head? = some c → jsIsSpace c = false)
    (hl : ∀ c, s.getLast? = some c → jsIsSpace c = false) : jsTrim s = s := by
  cases s with
  | nil => rfl
  | cons c t =>
    unfold jsTrim
    rw [List.dropWhile_cons_of_neg (by simp [hh c rfl])]
    cases hrev : (c :: t).reverse with
    | nil => simp at hrev
    | cons d r =>
      have hd : (c :: t).getLast? = some d := by
        rw [← List.head?_reverse, hrev]
        rfl
      rw [List.dropWhile_cons_of_neg (by simp [hl d hd])]
      rw [← hrev]
      simp

/-! ### Marker facts -/

theorem isVerseNumStr_marker (n : Nat) :
    isVerseNumStr (numberToArabicIndic n) = true := by
  unfold isVerseNumStr
  have h1 := numberToArabicIndic_ne_nil n
  have h2 := numberToArabicIndic_all_digits n
  rw [Bool.and_eq_true, List.all_eq_true]
  constructor
  · cases h : numberToArabicIndic n with
    | nil => exact absurd h h1
    | cons a l => simp
  · exact h2

/-! ### Characterisation of matches on structured text -/

theorem scanMid_run_all :
    ∀ (m : List Char) (sp : Char) (run : List Char),
      (∀ c ∈ m, isArabicIndicDigit c = true) → run ≠ [] →
      scanMid (some sp) run m = some ([], run.reverse ++ m, []) := by
  intro m
  induction m with
  | nil =>
    intro sp run hall hne
    obtain ⟨r, rs, rfl⟩ := List.exists_cons_of_ne_nil hne
    simp [show scanMid (some sp) (r :: rs) [] = some ([], (r :: rs).reverse, []) from rfl]
  | cons d m' ih =>
    intro sp run hall hne
    rw [scanMid_cons_some, if_pos (hall d (List.mem_cons_self d m'))]
    rw [ih sp (d :: run) (fun c hc => hall c (List.mem_cons_of_mem d hc)) (by simp)]
    simp

theorem scanMid_run_space :
    ∀ (m : List Char) (sp w : Char) (run rest : List Char),
      (∀ c ∈ m, isArabicIndicDigit c = true) → run ≠ [] → jsIsSpace w = true →
      scanMid (some sp) run (m ++ w :: rest) = some ([], run.reverse ++ m, rest) := by
  intro m
  induction m with
  | nil =>
    intro sp w run rest hall hne hw
    rw [List.nil_append, scanMid_cons_some, if_neg (by simp [not_digit_of_space hw]),
      if_neg (by simp [hne]), if_pos hw]
    simp
  | cons d m' ih =>
    intro sp w run rest hall hne hw
    rw [List.cons_append, scanMid_cons_some, if_pos (hall d (List.mem_cons_self d m'))]
    rw [ih sp w (d :: run) rest (fun c hc => hall c (List.mem_cons_of_mem d hc)) (by simp) hw]
    simp

theorem scanMid_enter_run_end {m : List Char} (sp : Char) (hne : m ≠ [])
    (hall : ∀ c ∈ m, isArabicIndicDigit c = true) :
    scanMid (some sp) [] m = some ([], m, []) := by
  obtain ⟨d, m', rfl⟩ := List.exists_cons_of_ne_nil hne
  rw [scanMid_cons_some, if_pos (hall d (List.mem_cons_self d m'))]
  rw [scanMid_run_all m' sp [d] (fun c hc => hall c (List.mem_cons_of_mem d hc)) (by simp)]
  simp

theorem scanMid_enter_run_space {m : List Char} (sp w : Char) (rest : List Char)
    (hne : m ≠ []) (hall : ∀ c ∈ m, isArabicIndicDigit c = true)
    (hw : jsIsSpace w = true) :
    scanMid (some sp) [] (m ++ w :: rest) = some ([], m, rest) := by
  obtain ⟨d, m', rfl⟩ := List.exists_cons_of_ne_nil hne
  rw [List.cons_append, scanMid_cons_some, if_pos (hall d (List.mem_cons_self d m'))]
  rw [scanMid_run_space m' sp w [d] rest (fun c hc => hall c (List.mem_cons_of_mem d hc))
    (by simp) hw]
  simp

theorem scanMid_skip_text :
    ∀ (t : List Char) (sp : Option Char) (w : Char) (rest2 cap post : List Char),
      (∀ c ∈ t, isArabicIndicDigit c = false) → jsIsSpace w = true →
      (∀ w' : Char, scanMid (some w') [] rest2 = some ([], cap, post)) →
      scanMid sp [] (t ++ w :: rest2) = some (sp.toList ++ t, cap, post) := by
  intro t
  induction t with
  | nil =>
    intro sp w rest2 cap post hall hw hcont
    cases sp with
    | none =>
      rw [List.nil_append, scanMid_cons_none, if_pos hw, hcont w]
      rfl
    | some s =>
      rw [List.nil_append, scanMid_cons_some, if_neg (by simp [not_digit_of_space hw]),
        if_pos (by rfl), if_pos hw, hcont w]
      rfl
  | cons c t' ih =>
    intro sp w rest2 cap post hall hw hcont
    have hc : isArabicIndicDigit c = false := hall c (List.mem_cons_self c t')
    have hrest : ∀ x ∈ t', isArabicIndicDigit x = false :=
      fun x hx => hall x (List.mem_cons_of_mem c hx)
    cases sp with
    | none =>
      rw [List.cons_append, scanMid_cons_none]
      by_cases hcs : jsIsSpace c
      · rw [if_pos hcs, ih (some c) w rest2 cap post hrest hw hcont]
        rfl
      · rw [if_neg hcs, ih none w rest2 cap post hrest hw hcont]
        rfl
    | some s =>
      rw [List.cons_append, scanMid_cons_some, if_neg (by simp [hc]), if_pos (by rfl)]
      by_cases hcs : jsIsSpace c
      · rw [if_pos hcs, ih (some c) w rest2 cap post hrest hw hcont]
        rfl
      · rw [if_neg hcs, ih none w rest2 cap post hrest hw hcont]
        rfl

theorem scanEnd_run_all :
    ∀ (m run : List Char),
      (∀ c ∈ m, isArabicIndicDigit c = true) → run ≠ [] →
      scanEnd run m = some ([], run.reverse ++ m, []) := by
  intro m
  induction m with
  | nil =>
    intro run hall hne
    obtain ⟨r, rs, rfl⟩ := List.exists_cons_of_ne_nil hne
    simp [show scanEnd (r :: rs) [] = some ([], (r :: rs).reverse, []) from rfl]
  | cons d m' ih =>
    intro run hall hne
    rw [scanEnd_cons, if_pos (hall d (List.mem_cons_self d m'))]
    rw [ih (d :: run) (fun c hc => hall c (List.mem_cons_of_mem d hc)) (by simp)]
    simp

theorem scanEnd_run_space :
    ∀ (m : List Char) (w : Char) (run rest : List Char),
      (∀ c ∈ m, isArabicIndicDigit c = true) → run ≠ [] → jsIsSpace w = true →
      scanEnd run (m ++ w :: rest) = some ([], run.reverse ++ m, rest) := by
  intro m
  induction m with
  | nil =>
    intro w run rest hall hne hw
    rw [List.nil_append, scanEnd_cons, if_neg (by simp [not_digit_of_space hw]),
      if_neg (by simp [hne]), if_pos hw]
    simp
  | cons d m' ih =>
    intro w run rest hall hne hw
    rw [List.cons_append, scanEnd_cons, if_pos (hall d (List.mem_cons_self d m'))]
    rw [ih w (d :: run) rest (fun c hc => hall c (List.mem_cons_of_mem d hc)) (by simp) hw]
    simp

theorem scanEnd_enter_run_end {m : List Char} (hne : m ≠ [])
    (hall : ∀ c ∈ m, isArabicIndicDigit c = true) :
    scanEnd [] m = some ([], m, []) := by
  obtain ⟨d, m', rfl⟩ := List.exists_cons_of_ne_nil hne
  rw [scanEnd_cons, if_pos (hall d (List.mem_cons_self d m'))]
  rw [scanEnd_run_all m' [d] (fun c hc => hall c (List.mem_cons_of_mem d hc)) (by simp)]
  simp

theorem scanEnd_enter_run_space {m : List Char} (w : Char) (rest : List Char)
    (hne : m ≠ []) (hall : ∀ c ∈ m, isArabicIndicDigit c = true)
    (hw : jsIsSpace w = true) :
    scanEnd [] (m ++ w :: rest) = some ([], m, rest) := by
  obtain ⟨d, m', rfl⟩ := List.exists_cons_of_ne_nil hne
  rw [List.cons_append, scanEnd_cons, if_pos (hall d (List.mem_cons_self d m'))]
  rw [scanEnd_run_space m' w [d] rest (fun c hc => hall c (List.mem_cons_of_mem d hc))
    (by simp) hw]
  simp

theorem scanEnd_skip_text :
    ∀ (t : List Char) (rest2 cap post : List Char),
      (∀ c ∈ t, isArabicIndicDigit c = false) →
      scanEnd [] rest2 = some ([], cap, post) →
      scanEnd [] (t ++ rest2) = some (t, cap, post) := by
  intro t
  induction t with
  | nil =>
    intro rest2 cap post hall hcont
    simpa using hcont
  | cons c t' ih =>
    intro rest2 cap post hall hcont
    have hc : isArabicIndicDigit c = false := hall c (List.mem_cons_self c t')
    rw [List.cons_append, scanEnd_cons, if_neg (by simp [hc]), if_pos (by rfl)]
    rw [ih rest2 cap post (fun x hx => hall x (List.mem_cons_of_mem c hx)) hcont]
    rfl

/-! ### Reconstruction of segmented text (claim C8) -/

/-- Modelled from the spec's idempotence statement: rejoin the unit texts
with their sequence-number markers reinserted — each marker rendered by
`numberToArabicIndic` after its unit's text, everything separated by single
spaces. -/
def reconstructText : List Verse → List Char
  | [] => []
  | [v] => v.text ++ ' ' :: numberToArabicIndic v.number
  | v :: vs => v.text ++ ' ' :: (numberToArabicIndic v.number ++ ' ' :: reconstructText vs)

/-- The chunk list produced by the mid-stream split on reconstructed text. -/
def partsMid : List Verse → List (List Char)
  | [] => [[]]
  | v :: vs => v.text :: numberToArabicIndic v.number :: partsMid vs

/-- The chunk list produced by the end-of-unit split on reconstructed text. -/
def partsEnd : List Verse → List (List Char)
  | [] => [[]]
  | v :: vs => (v.text ++ [' ']) :: numberToArabicIndic v.number :: partsEnd vs

/-- A verse whose text is well-behaved for reconstruction: non-empty,
already trimmed, and free of numeral-alphabet characters. -/
def GoodVerse (v : Verse) : Prop :=
  v.text ≠ [] ∧ jsTrim v.text = v.text ∧ ∀ c ∈ v.text, isArabicIndicDigit c = false

theorem findMidMatch_reconstruct (v : Verse) (vs : List Verse) (hv : GoodVerse v) :
    findMidMatch (reconstructText (v :: vs)) =
      some (v.text, numberToArabicIndic v.number, reconstructText vs) := by
  obtain ⟨hne, htrim, hnd⟩ := hv
  cases vs with
  | nil =>
    show scanMid none [] (v.text ++ ' ' :: numberToArabicIndic v.number) = _
    rw [scanMid_skip_text v.text none ' ' (numberToArabicIndic v.number)
      (numberToArabicIndic v.number) [] hnd (by decide)
      (fun w' => scanMid_enter_run_end w' (numberToArabicIndic_ne_nil v.number)
        (numberToArabicIndic_all_digits v.number))]
    rfl
  | cons v' vs' =>
    show scanMid none []
      (v.text ++ ' ' :: (numberToArabicIndic v.number ++ ' ' :: reconstructText (v' :: vs')))
      = _
    rw [scanMid_skip_text v.text none ' '
      (numberToArabicIndic v.number ++ ' ' :: reconstructText (v' :: vs'))
      (numberToArabicIndic v.number) (reconstructText (v' :: vs')) hnd (by decide)
      (fun w' => scanMid_enter_run_space w' ' ' (reconstructText (v' :: vs'))
        (numberToArabicIndic_ne_nil v.number)
        (numberToArabicIndic_all_digits v.number) (by decide))]
    rfl

theorem findEndMatch_reconstruct (v : Verse) (vs : List Verse) (hv : GoodVerse v) :
    findEndMatch (reconstructText (v :: vs)) =
      some (v.text ++ [' '], numberToArabicIndic v.number, reconstructText vs) := by
  obtain ⟨hne, htrim, hnd⟩ := hv
  have hnd' : ∀ c ∈ v.text ++ [' '], isArabicIndicDigit c = false := by
    intro c hc
    rw [List.mem_append, List.mem_singleton] at hc
    rcases hc with hc | rfl
    · exact hnd c hc
    · decide
  cases vs with
  | nil =>
    show scanEnd [] (v.text ++ ' ' :: numberToArabicIndic v.number) = _
    rw [show v.text ++ ' ' :: numberToArabicIndic v.number
        = (v.text ++ [' ']) ++ numberToArabicIndic v.number by simp]
    rw [scanEnd_skip_text (v.text ++ [' ']) (numberToArabicIndic v.number)
      (numberToArabicIndic v.number) [] hnd'
      (scanEnd_enter_run_end (numberToArabicIndic_ne_nil v.number)
        (numberToArabicIndic_all_digits v.number))]
    rfl
  | cons v' vs' =>
    show scanEnd []
      (v.text ++ ' ' :: (numberToArabicIndic v.number ++ ' ' :: reconstructText (v' :: vs')))
      = _
    rw [show v.text ++ ' ' :: (numberToArabicIndic v.number ++ ' ' :: reconstructText (v' :: vs'))
        = (v.text ++ [' ']) ++ (numberToArabicIndic v.number ++ ' ' :: reconstructText (v' :: vs'))
        by simp]
    rw [scanEnd_skip_text (v.text ++ [' '])
      (numberToArabicIndic v.number ++ ' ' :: reconstructText (v' :: vs'))
      (numberToArabicIndic v.number) (reconstructText (v' :: vs')) hnd'
      (scanEnd_enter_run_space ' ' (reconstructText (v' :: vs'))
        (numberToArabicIndic_ne_nil v.number)
        (numberToArabicIndic_all_digits v.number) (by decide))]

theorem jsSplitMid_reconstruct :
    ∀ (L : List Verse), (∀ v ∈ L, GoodVerse v) →
      jsSplitMid (reconstructText L) = partsMid L
  | [], _ => by
    rw [show reconstructText [] = [] from rfl, jsSplitMid_of_none (by rfl)]
    rfl
  | v :: vs, h => by
    rw [jsSplitMid_cons_of_find (findMidMatch_reconstruct v vs (h v (List.mem_cons_self v vs)))]
    rw [jsSplitMid_reconstruct vs (fun u hu => h u (List.mem_cons_of_mem v hu))]
    rfl

theorem jsSplitEnd_reconstruct :
    ∀ (L : List Verse), (∀ v ∈ L, GoodVerse v) →
      jsSplitEnd (reconstructText L) = partsEnd L
  | [], _ => by
    rw [show reconstructText [] = [] from rfl, jsSplitEnd_of_none (by rfl)]
    rfl
  | v :: vs, h => by
    rw [jsSplitEnd_cons_of_find (findEndMatch_reconstruct v vs (h v (List.mem_cons_self v vs)))]
    rw [jsSplitEnd_reconstruct vs (fun u hu => h u (List.mem_cons_of_mem v hu))]
    rfl

/-! ### The acceptance loop on reconstructed chunk lists -/

theorem stepMid_text_from_empty (acc : List Verse) (i : Nat) {t : List Char}
    (hnd : ∀ c ∈ t, isArabicIndicDigit c = false) :
    stepMid ⟨acc, [], i⟩ t = ⟨acc, t, i⟩ := by
  rw [stepMid]
  rw [if_neg (by simp [isVerseNumStr_false_of_no_digit hnd])]
  simp

theorem stepEnd_text_from_empty (acc : List Verse) (i : Nat) {t : List Char}
    (hnd : ∀ c ∈ t, isArabicIndicDigit c = false) :
    stepEnd ⟨acc, [], i⟩ t = ⟨acc, t, i⟩ := by
  rw [stepEnd]
  rw [if_neg (by simp [isVerseNumStr_false_of_no_digit hnd])]
  simp

theorem step_accept_marker {step : ScanState → List Char → ScanState}
    (hstep : step = stepMid ∨ step = stepEnd)
    (acc : List Verse) (i : Nat) {cur : List Char}
    (htrim : jsTrim cur ≠ []) :
    step ⟨acc, cur, i⟩ (numberToArabicIndic i) =
      ⟨acc ++ [⟨i, jsTrim cur⟩], [], i + 1⟩ := by
  have hn : isVerseNumStr (numberToArabicIndic i) = true := isVerseNumStr_marker i
  have hd : arabicIndicToNumber (numberToArabicIndic i) = some (i : Int) :=
    decode_numberToArabicIndic i
  have hflush : flushVerse ⟨acc, cur, i⟩ = ⟨acc ++ [⟨i, jsTrim cur⟩], [], i + 1⟩ := by
    simp only [flushVerse]
    rw [if_neg (by simpa [List.isEmpty_iff] using htrim)]
  rcases hstep with rfl | rfl
  · rw [stepMid, if_pos hn, if_pos hd, hflush]
  · rw [stepEnd, if_pos hn, if_pos hd, hflush]

theorem foldl_stepMid_parts :
    ∀ (L : List Verse) (acc : List Verse) (i : Nat),
      (∀ v ∈ L, GoodVerse v) →
      L.map Verse.number = List.range' i L.length →
      (partsMid L).foldl stepMid ⟨acc, [], i⟩ = ⟨acc ++ L, [], i + L.length⟩
  | [], acc, i, _, _ => by
    show stepMid ⟨acc, [], i⟩ [] = _
    rw [stepMid_text_from_empty acc i (by simp)]
    simp
  | v :: vs, acc, i, hg, hn => by
    obtain ⟨hne, htrim, hnd⟩ := hg v (List.mem_cons_self v vs)
    have hnum : v.number = i ∧ vs.map Verse.number = List.range' (i + 1) vs.length := by
      rw [List.map_cons, List.length_cons, List.range'_succ] at hn
      exact ⟨List.head_eq_of_cons_eq hn, List.tail_eq_of_cons_eq hn⟩
    show ((v.text :: numberToArabicIndic v.number :: partsMid vs).foldl stepMid
      ⟨acc, [], i⟩) = _
    rw [List.foldl_cons, stepMid_text_from_empty acc i hnd, List.foldl_cons, hnum.1,
      step_accept_marker (Or.inl rfl) acc i (htrim.symm ▸ hne), htrim]
    rw [foldl_stepMid_parts vs (acc ++ [Verse.mk i v.text]) (i + 1)
      (fun u hu => hg u (List.mem_cons_of_mem v hu)) hnum.2]
    have hv : Verse.mk i v.text = v := by
      cases v with
      | mk n t => simp_all
    rw [hv]
    simp only [List.append_assoc, List.singleton_append, List.length_cons]
    congr 1
    omega

theorem foldl_stepEnd_parts :
    ∀ (L : List Verse) (acc : List Verse) (i : Nat),
      (∀ v ∈ L, GoodVerse v) →
      L.map Verse.number = List.range' i L.length →
      (partsEnd L).foldl stepEnd ⟨acc, [], i⟩ = ⟨acc ++ L, [], i + L.length⟩
  | [], acc, i, _, _ => by
    show stepEnd ⟨acc, [], i⟩ [] = _
    rw [stepEnd_text_from_empty acc i (by simp)]
    simp
  | v :: vs, acc, i, hg, hn => by
    obtain ⟨hne, htrim, hnd⟩ := hg v (List.mem_cons_self v vs)
    have hnum : v.number = i ∧ vs.map Verse.number = List.range' (i + 1) vs.length := by
      rw [List.map_cons, List.length_cons, List.range'_succ] at hn
      exact ⟨List.head_eq_of_cons_eq hn, List.tail_eq_of_cons_eq hn⟩
    have hnd' : ∀ c ∈ v.text ++ [' '], isArabicIndicDigit c = false := by
      intro c hc
      rw [List.mem_append, List.mem_singleton] at hc
      rcases hc with hc | rfl
      · exact hnd c hc
      · decide
    have htr' : jsTrim (v.text ++ [' ']) = v.text := jsTrim_append_space hne htrim
    show (((v.text ++ [' ']) :: numberToArabicIndic v.number :: partsEnd vs).foldl stepEnd
      ⟨acc, [], i⟩) = _
    rw [List.foldl_cons, stepEnd_text_from_empty acc i hnd', List.foldl_cons, hnum.1,
      step_accept_marker (Or.inr rfl) acc i (htr'.symm ▸ hne), htr']
    rw [foldl_stepEnd_parts vs (acc ++ [Verse.mk i v.text]) (i + 1)
      (fun u hu => hg u (List.mem_cons_of_mem v hu)) hnum.2]
    have hv : Verse.mk i v.text = v := by
      cases v with
      | mk n t => simp_all
    rw [hv]
    simp only [List.append_assoc, List.singleton_append, List.length_cons]
    congr 1
    omega

/-- Segmenting reconstructed text recovers the original verse list, for
well-behaved gap-free verse lists, in both conventions. -/
theorem parse_reconstruct (L : List Verse)
    (hg : ∀ v ∈ L, GoodVerse v)
    (hn : L.map Verse.number = List.range' 1 L.length) :
    Mid.parseVersesFromContent (reconstructText L) = L ∧
    EndUnit.parseVersesFromContent (reconstructText L) = L := by
  constructor
  · show finalizeScan ((jsSplitMid (reconstructText L)).foldl stepMid initState) = L
    rw [jsSplitMid_reconstruct L hg,
      show initState = (⟨[], [], 1⟩ : ScanState) from rfl,
      foldl_stepMid_parts L [] 1 hg hn]
    simp [finalizeScan, jsTrim]
  · show finalizeScan ((jsSplitEnd (reconstructText L)).foldl stepEnd initState) = L
    rw [jsSplitEnd_reconstruct L hg,
      show initState = (⟨[], [], 1⟩ : ScanState) from rfl,
      foldl_stepEnd_parts L [] 1 hg hn]
    simp [finalizeScan, jsTrim]

/-! ### Claim C8 -/

/-- Counterexample to claim C8 as stated: idempotence under reconstruction
fails.  First input (end-of-unit): a dropped empty first segment yields the
list `[(2, "ابج")]`, whose reconstruction re-segments to `[(1, "ابج ٢")]`.
Second input (mid-stream): the unit list `[(1, "ا ٣"), (2, "ب")]` is even
gap-free, yet its reconstruction re-segments to a single unit because the
mid-stream separator consumes the space that the rejected candidate `٣`
needs as a left boundary for the marker `١` that follows it. -/
theorem claim_C8_counterexample :
    (EndUnit.parseVersesFromContent "١ ابج ٢".data = [⟨2, "ابج".data⟩] ∧
      EndUnit.parseVersesFromContent (reconstructText [⟨2, "ابج".data⟩]) ≠
        [⟨2, "ابج".data⟩]) ∧
    (Mid.parseVersesFromContent "ا ٣  ١ ب ٢".data =
        [⟨1, "ا ٣".data⟩, ⟨2, "ب".data⟩] ∧
      Mid.parseVersesFromContent
          (reconstructText [⟨1, "ا ٣".data⟩, ⟨2, "ب".data⟩]) ≠
        [⟨1, "ا ٣".data⟩, ⟨2, "ب".data⟩]) := by
  decide

/-- Claim C8 (amended): idempotence under reconstruction holds for unit
lists whose numbering is exactly 1..k and whose texts are non-empty,
trimmed, and free of numeral-alphabet characters; re-segmenting the
reconstruction then reproduces the identical unit list in both
conventions. -/
theorem claim_C8_amended (L : List Verse)
    (hg : ∀ v ∈ L, v.text ≠ [] ∧ jsTrim v.text = v.text ∧
      ∀ c ∈ v.text, isArabicIndicDigit c = false)
    (hn : L.map Verse.number = List.range' 1 L.length) :
    Mid.parseVersesFromContent (reconstructText L) = L ∧
    EndUnit.parseVersesFromContent (reconstructText L) = L :=
  parse_reconstruct L hg hn

/-- Witness for the amended claim C8 on a concrete two-unit list. -/
theorem claim_C8_amended_witness :
    Mid.parseVersesFromContent
        (reconstructText [⟨1, "ابج".data⟩, ⟨2, "ده".data⟩]) =
      [⟨1, "ابج".data⟩, ⟨2, "ده".data⟩] ∧
    EndUnit.parseVersesFromContent
        (reconstructText [⟨1, "ابج".data⟩, ⟨2, "ده".data⟩]) =
      [⟨1, "ابج".data⟩, ⟨2, "ده".data⟩] :=
  claim_C8_amended [⟨1, "ابج".data⟩, ⟨2, "ده".data⟩]
    (by decide) (by decide)

/-! ### Claim C4 -/

/-- Claim C4: under the end-of-unit convention, content of the form
`t1 ١ t2 ٣` (markers 1 then 3, no 2) emits the first unit `(1, t1)`, rejects
`٣` (3 ≠ 2) absorbing it into the buffer as ordinary text, and finally
emits exactly one trailing unit numbered 2 whose text is the remainder
including the literal `٣` character. -/
theorem claim_C4_gap_rejection (t1 t2 : List Char)
    (h1ne : t1 ≠ []) (h1tr : jsTrim t1 = t1)
    (h1nd : ∀ c ∈ t1, isArabicIndicDigit c = false)
    (h2ne : t2 ≠ []) (h2tr : jsTrim t2 = t2)
    (h2nd : ∀ c ∈ t2, isArabicIndicDigit c = false) :
    EndUnit.parseVersesFromContent (t1 ++ ' ' :: '١' :: ' ' :: (t2 ++ [' ', '٣'])) =
      [⟨1, t1⟩, ⟨2, t2 ++ [' ', '٣']⟩] := by
  have h1nd' : ∀ c ∈ t1 ++ [' '], isArabicIndicDigit c = false := by
    intro c hc
    rw [List.mem_append, List.mem_singleton] at hc
    rcases hc with hc | rfl
    · exact h1nd c hc
    · decide
  have h2nd' : ∀ c ∈ t2 ++ [' '], isArabicIndicDigit c = false := by
    intro c hc
    rw [List.mem_append, List.mem_singleton] at hc
    rcases hc with hc | rfl
    · exact h2nd c hc
    · decide
  have hfind1 : findEndMatch (t1 ++ ' ' :: '١' :: ' ' :: (t2 ++ [' ', '٣'])) =
      some (t1 ++ [' '], ['١'], t2 ++ [' ', '٣']) := by
    show scanEnd [] _ = _
    rw [show t1 ++ ' ' :: '١' :: ' ' :: (t2 ++ [' ', '٣'])
        = (t1 ++ [' ']) ++ (['١'] ++ ' ' :: (t2 ++ [' ', '٣'])) by simp]
    exact scanEnd_skip_text (t1 ++ [' ']) _ _ _ h1nd'
      (scanEnd_enter_run_space ' ' (t2 ++ [' ', '٣']) (by simp)
        (by intro c hc; simp at hc; subst hc; decide) (by decide))
  have hfind2 : findEndMatch (t2 ++ [' ', '٣']) =
      some (t2 ++ [' '], ['٣'], []) := by
    show scanEnd [] _ = _
    rw [show t2 ++ [' ', '٣'] = (t2 ++ [' ']) ++ ['٣'] by simp]
    exact scanEnd_skip_text (t2 ++ [' ']) _ _ _ h2nd'
      (scanEnd_enter_run_end (by simp)
        (by intro c hc; simp at hc; subst hc; decide))
  have hsplit : jsSplitEnd (t1 ++ ' ' :: '١' :: ' ' :: (t2 ++ [' ', '٣'])) =
      [t1 ++ [' '], ['١'], t2 ++ [' '], ['٣'], []] := by
    rw [jsSplitEnd_cons_of_find hfind1, jsSplitEnd_cons_of_find hfind2,
      jsSplitEnd_of_none (by rfl)]
  show finalizeScan _ = _
  rw [hsplit]
  simp only [List.foldl_cons, List.foldl_nil]
  rw [show initState = (⟨[], [], 1⟩ : ScanState) from rfl]
  rw [stepEnd_text_from_empty [] 1 h1nd']
  rw [show (['١'] : List Char) = numberToArabicIndic 1 from rfl]
  rw [step_accept_marker (Or.inr rfl) [] 1
    (by rw [jsTrim_append_space h1ne h1tr]; exact h1ne)]
  rw [jsTrim_append_space h1ne h1tr]
  simp only [List.nil_append]
  rw [show (1 : Nat) + 1 = 2 from rfl]
  rw [stepEnd_text_from_empty [Verse.mk 1 t1] 2 h2nd']
  have e4 : stepEnd ⟨[Verse.mk 1 t1], t2 ++ [' '], 2⟩ ['٣'] =
      ⟨[Verse.mk 1 t1], (t2 ++ [' ']) ++ ['٣'], 2⟩ := by
    simp only [stepEnd]
    rw [if_pos (by decide), if_neg (by decide)]
  rw [e4]
  have e5 : stepEnd ⟨[Verse.mk 1 t1], (t2 ++ [' ']) ++ ['٣'], 2⟩ [] =
      ⟨[Verse.mk 1 t1], (t2 ++ [' ']) ++ ['٣'], 2⟩ := by
    simp only [stepEnd]
    rw [if_neg (by decide)]
    simp
  rw [e5]
  have htr : jsTrim ((t2 ++ [' ']) ++ ['٣']) = (t2 ++ [' ']) ++ ['٣'] := by
    apply jsTrim_eq_self_of_ends
    · intro c hc
      obtain ⟨d, t2', rfl⟩ := List.exists_cons_of_ne_nil h2ne
      have hcd : d = c := by
        simpa using hc
      subst hcd
      exact head_not_space_of_trim h2tr
    · intro c hc
      rw [List.getLast?_concat] at hc
      rw [Option.some_inj] at hc
      subst hc
      decide
  simp only [finalizeScan, htr]
  rw [if_neg (by simp)]
  simp

/-- Witness for claim C4 at concrete texts. -/
theorem claim_C4_gap_rejection_witness :
    EndUnit.parseVersesFromContent
        ("اب".data ++ ' ' :: '١' :: ' ' :: ("جد".data ++ [' ', '٣'])) =
      [⟨1, "اب".data⟩, ⟨2, "جد".data ++ [' ', '٣']⟩] :=
  claim_C4_gap_rejection "اب".data "جد".data
    (by decide) (by decide) (by decide) (by decide) (by decide) (by decide)
